import Mathlib

/-!
# Verification of the phoenix-trading-bot execution/risk/position core

Shallow embedding of the components named by the specification's testable
properties, translated from the Python sources:

* `bot/core/position_manager.py`  — position store (`open_position`, `add_dca`,
  `close_position`, `update_position`)
* `bot/api/rate_limiter.py`       — sliding-window `RateLimiter.acquire`
* `bot/core/circuit_breaker.py`   — `CircuitBreaker` trip / cooldown / reset
* `bot/core/risk_manager.py`      — `check_position_weight_cap`, `get_trade_amount`
* `bot/core/execution_engine.py`  — `_build_tp_levels`, `_handle_tp_levels`,
  `check_trailing_stop`, `market_sell`
* `bot/utils/cache.py`            — `CacheManager.get`, `set`, `get_or_set`

Numbers (Python floats) are modelled as exact rationals, wall-clock instants
(`time.time()`, `datetime.now()`) as rational timestamps passed in explicitly,
and exchange / network collaborators as explicit environment records.  Python's
`round(x, n)` (banker's rounding) and `int(x)` (truncation) are reproduced
exactly on `ℚ`.
-/

set_option maxHeartbeats 1000000

namespace Phoenix

/-! ## Python numeric helpers -/

/-- Round to the nearest integer, ties to the even integer: the rounding used
by Python's builtin `round`. -/
def roundHalfEven (x : ℚ) : ℤ :=
  let f : ℤ := ⌊x⌋
  let r : ℚ := x - f
  if r < 1/2 then f
  else if 1/2 < r then f + 1
  else if Even f then f else f + 1

/-- Python `round(x, n)`: round to `n` decimal places, ties to even. -/
def pyRound (n : ℕ) (x : ℚ) : ℚ :=
  (roundHalfEven (x * (10 : ℚ) ^ n) : ℚ) / (10 : ℚ) ^ n

/-- Python `int(x)`: truncation toward zero. -/
def pyInt (x : ℚ) : ℤ :=
  if 0 ≤ x then ⌊x⌋ else ⌈x⌉

/-! ## Association-list maps (Python `dict` keyed by symbol strings) -/

/-- First binding for `k`, if any (Python `d.get(k)`; a dict's keys are
unique, so the first binding is the binding). -/
def assocFind (k : String) : List (String × α) → Option α
  | [] => none
  | p :: rest => if p.1 = k then some p.2 else assocFind k rest

/-- Python `d[k] = v`: replace the binding if the key is present, else append. -/
def assocSet (k : String) (v : α) : List (String × α) → List (String × α)
  | [] => [(k, v)]
  | p :: rest => if p.1 = k then (k, v) :: rest else p :: assocSet k v rest

/-- Python `del d[k]`. -/
def assocErase (k : String) (l : List (String × α)) : List (String × α) :=
  l.filter (fun p => p.1 ≠ k)

/-! ## Position store (`bot/core/position_manager.py`)

Only the fields that the verified operations read or write are carried;
string-valued audit metadata (`opened_at`, `ai_reason`, …) is dropped. -/

/-- One record of `tp_levels` (`{id, name, price, portion, executed}`). -/
structure TpLevel where
  id : ℕ
  price : ℚ
  portion : ℚ
  executed : Bool
deriving Repr, DecidableEq

/-- The `trailing` sub-dict (`{enabled, trigger, offset, highest_price}`);
`trigger` and `offset` are `None` in the `open_position` default record. -/
structure TrailingInfo where
  enabled : Bool
  trigger : Option ℚ
  offset : Option ℚ
  highest_price : ℚ
deriving Repr, DecidableEq

/-- One `dca_history` entry (`{qty, price, timestamp}`, timestamp dropped). -/
structure DcaFill where
  qty : ℚ
  price : ℚ
deriving Repr, DecidableEq

/-- A position record.  `trailing = none` models a record whose `trailing`
key is absent or empty (`pos.get("trailing", {})` falsy). -/
structure Position where
  qty : ℚ
  entry_price : ℚ
  tp : ℚ
  sl : ℚ
  ai_tp : ℚ
  ai_sl : ℚ
  dca_stage : ℕ
  dca_history : List DcaFill
  initial_qty : ℚ
  tp_levels : List TpLevel
  trailing : Option TrailingInfo
deriving Repr, DecidableEq

/-- The position store: `self.positions`, a symbol-keyed dict. -/
structure PositionManager where
  positions : List (String × Position)
deriving Repr, DecidableEq

def PositionManager.has_position (pm : PositionManager) (symbol : String) : Bool :=
  (assocFind symbol pm.positions).isSome

def PositionManager.get_position (pm : PositionManager) (symbol : String) : Option Position :=
  assocFind symbol pm.positions

/-- `open_position`: builds `new_pos` and stores it with
`self.positions[symbol] = new_pos` — there is no existence check — then
returns `True`.  The default `trailing` record (built when the caller passes
`None`) is disabled with `highest_price = price`. -/
def PositionManager.open_position (pm : PositionManager) (symbol : String)
    (qty price : ℚ) (strat_tp strat_sl ai_tp ai_sl : ℚ)
    (trailing : Option TrailingInfo) (tp_levels : List TpLevel) :
    PositionManager × Bool :=
  let trailing' := match trailing with
    | none => some { enabled := false, trigger := none, offset := none, highest_price := price }
    | some t => some t
  let new_pos : Position :=
    { qty := qty
      entry_price := price
      tp := strat_tp
      sl := strat_sl
      ai_tp := ai_tp
      ai_sl := ai_sl
      dca_stage := 0
      dca_history := []
      initial_qty := qty
      tp_levels := tp_levels
      trailing := trailing' }
  ({ positions := assocSet symbol new_pos pm.positions }, true)

/-- The in-place mutation performed by `add_dca` on the found record:
new average entry, summed quantity, `dca_stage + 1`, history append. -/
def Position.applyDca (pos : Position) (qty price : ℚ) : Position :=
  let new_total_qty := pos.qty + qty
  let new_entry := (pos.qty * pos.entry_price + qty * price) / new_total_qty
  { pos with
      qty := new_total_qty
      entry_price := new_entry
      dca_stage := pos.dca_stage + 1
      dca_history := pos.dca_history ++ [⟨qty, price⟩] }

/-- `add_dca(symbol, qty, price)`: `False` when no position exists, else the
averaging update above. -/
def PositionManager.add_dca (pm : PositionManager) (symbol : String)
    (qty price : ℚ) : PositionManager × Bool :=
  match assocFind symbol pm.positions with
  | none => (pm, false)
  | some pos =>
      ({ positions := assocSet symbol (pos.applyDca qty price) pm.positions }, true)

/-- `update_position(symbol, new_pos)`: wholesale replacement, `False` when absent. -/
def PositionManager.update_position (pm : PositionManager) (symbol : String)
    (new_pos : Position) : PositionManager × Bool :=
  match assocFind symbol pm.positions with
  | none => (pm, false)
  | some _ => ({ positions := assocSet symbol new_pos pm.positions }, true)

/-- `close_position(symbol, exit_price)`: computes the P&L log values and
deletes the record; `False` when absent. -/
def PositionManager.close_position (pm : PositionManager) (symbol : String)
    (_exit_price : ℚ) : PositionManager × Bool :=
  match assocFind symbol pm.positions with
  | none => (pm, false)
  | some _ => ({ positions := assocErase symbol pm.positions }, true)

/-! ### Fill-sequence helpers for the volume-weighted-average-price property -/

/-- Folding a sequence of DCA fills into a position. -/
def Position.afterDcaFills (pos : Position) (fills : List DcaFill) : Position :=
  fills.foldl (fun p f => p.applyDca f.qty f.price) pos

/-- Total quantity of a list of fills. -/
def fillsQty (fills : List DcaFill) : ℚ :=
  (fills.map (fun f => f.qty)).sum

/-- Total cost (quantity × price summed) of a list of fills. -/
def fillsCost (fills : List DcaFill) : ℚ :=
  (fills.map (fun f => f.qty * f.price)).sum

/-! ## Rate limiter (`bot/api/rate_limiter.py`)

`time.time()` instants are rational parameters.  The deque `self.calls` is a
list with its head the oldest timestamp.  The lock serializes all calls, so a
run is modelled as a sequence of admission checks at non-decreasing times;
an `acquire(wait=True)` that has to wait re-enters as the `wait=False` retry
it performs after sleeping. -/

structure RateLimitStats where
  total_calls : ℕ
  blocked_calls : ℕ
  rate_limit_hits : ℕ
  wait_time_total : ℚ
deriving Repr, DecidableEq

structure RateLimiter where
  max_calls : ℕ
  per_seconds : ℚ
  calls : List ℚ
  stats : RateLimitStats
deriving Repr, DecidableEq

/-- `_cleanup_old_calls(now)`: pop from the left while the head is older than
`now - per_seconds`. -/
def RateLimiter.cleanup_old_calls (rl : RateLimiter) (now : ℚ) : RateLimiter :=
  { rl with calls := rl.calls.dropWhile (fun t => t < now - rl.per_seconds) }

/-- `acquire(wait=False)` at instant `now`: purge, then grant-and-record if
below `max_calls`, else count the hit and the block and refuse. -/
def RateLimiter.acquireNoWait (rl : RateLimiter) (now : ℚ) : RateLimiter × Bool :=
  let rl1 := rl.cleanup_old_calls now
  if rl1.calls.length < rl1.max_calls then
    ({ rl1 with
        calls := rl1.calls ++ [now]
        stats := { rl1.stats with total_calls := rl1.stats.total_calls + 1 } }, true)
  else
    ({ rl1 with
        stats := { rl1.stats with
          rate_limit_hits := rl1.stats.rate_limit_hits + 1
          blocked_calls := rl1.stats.blocked_calls + 1 } }, false)

/-- `acquire(wait=True)` at instant `now`.  On the blocked path the code reads
`self.calls[0]` (an exception if the deque is empty — `none` here), sleeps
`wait_time + 0.1` seconds when `wait_time > 0`, and retries as
`acquire(wait=False)`; the retry instant is returned alongside the result.
The model lets no other thread intervene and no extra wall time pass beyond
the sleep. -/
def RateLimiter.acquireWait (rl : RateLimiter) (now : ℚ) :
    Option (RateLimiter × Bool × ℚ) :=
  let rl1 := rl.cleanup_old_calls now
  if rl1.calls.length < rl1.max_calls then
    some ({ rl1 with
        calls := rl1.calls ++ [now]
        stats := { rl1.stats with total_calls := rl1.stats.total_calls + 1 } }, true, now)
  else
    let rl2 := { rl1 with
      stats := { rl1.stats with rate_limit_hits := rl1.stats.rate_limit_hits + 1 } }
    match rl2.calls with
    | [] => none
    | oldest :: _ =>
        let wait_time := oldest + rl2.per_seconds - now
        if 0 < wait_time then
          let rl3 := { rl2 with
            stats := { rl2.stats with
              wait_time_total := rl2.stats.wait_time_total + wait_time } }
          let retryAt := now + wait_time + 1/10
          let step := rl3.acquireNoWait retryAt
          some (step.1, step.2, retryAt)
        else
          let step := rl2.acquireNoWait now
          some (step.1, step.2, now)

/-- A serialized run of admission checks at the given instants; returns the
final limiter and the list of instants that were granted. -/
def RateLimiter.runAcquireSeq (rl : RateLimiter) : List ℚ → RateLimiter × List ℚ
  | [] => (rl, [])
  | t :: ts =>
      let step := rl.acquireNoWait t
      let r := step.1.runAcquireSeq ts
      (r.1, if step.2 then t :: r.2 else r.2)

/-- Membership of a grant instant in the trailing window `[T - W, T]`. -/
def inWindow (W T g : ℚ) : Prop := T - W ≤ g ∧ g ≤ T

instance (W T g : ℚ) : Decidable (inWindow W T g) := by
  unfold inWindow; infer_instance

/-! ## Circuit breaker (`bot/core/circuit_breaker.py`)

`datetime.now()` is a rational timestamp in seconds; local dates (for the
daily rollover) are integers.  `elapsed` in `can_trade` is
`(now - trip_time) / 60` minutes, compared with `cooldown_minutes`. -/

structure CircuitBreaker where
  max_consecutive_losses : ℕ
  max_daily_loss_pct : ℚ
  max_api_failures : ℕ
  cooldown_minutes : ℚ
  consecutive_losses : ℕ
  daily_pnl : ℚ
  daily_pnl_pct : ℚ
  api_failures : ℕ
  is_tripped : Bool
  trip_reason : Option String
  trip_time : Option ℚ
  last_reset_date : ℤ
deriving Repr, DecidableEq

/-- `_daily_reset_check()`: clear the daily counters on date rollover. -/
def CircuitBreaker.daily_reset_check (cb : CircuitBreaker) (today : ℤ) : CircuitBreaker :=
  if cb.last_reset_date < today then
    { cb with daily_pnl := 0, daily_pnl_pct := 0, api_failures := 0, last_reset_date := today }
  else cb

/-- `_trip(reason)`: record the trip state (the alert callback is external). -/
def CircuitBreaker.trip (cb : CircuitBreaker) (reason : String) (now : ℚ) : CircuitBreaker :=
  { cb with is_tripped := true, trip_reason := some reason, trip_time := some now }

/-- `_check_conditions()`: first matching trip condition wins. -/
def CircuitBreaker.check_conditions (cb : CircuitBreaker) (now : ℚ) : CircuitBreaker :=
  if cb.is_tripped then cb
  else if cb.max_consecutive_losses ≤ cb.consecutive_losses then
    cb.trip "consecutive losses" now
  else if cb.daily_pnl_pct ≤ -cb.max_daily_loss_pct then
    cb.trip "daily loss" now
  else if cb.max_api_failures ≤ cb.api_failures then
    cb.trip "api failures" now
  else cb

/-- `record_trade(pnl, pnl_pct)`. -/
def CircuitBreaker.record_trade (cb : CircuitBreaker) (pnl pnl_pct : ℚ)
    (now : ℚ) (today : ℤ) : CircuitBreaker :=
  let cb1 := cb.daily_reset_check today
  let cb2 := { cb1 with
    daily_pnl := cb1.daily_pnl + pnl
    daily_pnl_pct := cb1.daily_pnl_pct + pnl_pct }
  let cb3 := if pnl < 0 then
      { cb2 with consecutive_losses := cb2.consecutive_losses + 1 }
    else
      { cb2 with consecutive_losses := 0 }
  cb3.check_conditions now

/-- `record_api_failure()`. -/
def CircuitBreaker.record_api_failure (cb : CircuitBreaker) (now : ℚ) (today : ℤ) :
    CircuitBreaker :=
  let cb1 := cb.daily_reset_check today
  let cb2 := { cb1 with api_failures := cb1.api_failures + 1 }
  cb2.check_conditions now

/-- `_reset_internal()`: arm again; the trip state and the loss / API-failure
counters are cleared (the daily P&L counters are left to the date rollover). -/
def CircuitBreaker.reset_internal (cb : CircuitBreaker) : CircuitBreaker :=
  { cb with
      is_tripped := false
      trip_reason := none
      trip_time := none
      consecutive_losses := 0
      api_failures := 0 }

/-- `can_trade()` at instant `now`: `True` when armed; when tripped,
auto-reset and allow once `cooldown_minutes` have elapsed since the trip
(only checked when a trip time is recorded and the cooldown is positive). -/
def CircuitBreaker.can_trade (cb : CircuitBreaker) (now : ℚ) : CircuitBreaker × Bool :=
  if !cb.is_tripped then (cb, true)
  else
    match cb.trip_time with
    | some t0 =>
        if 0 < cb.cooldown_minutes then
          if cb.cooldown_minutes ≤ (now - t0) / 60 then (cb.reset_internal, true)
          else (cb, false)
        else (cb, false)
    | none => (cb, false)

/-- `reset(manual)`: no-op returning `False` when armed, else reset. -/
def CircuitBreaker.reset (cb : CircuitBreaker) : CircuitBreaker × Bool :=
  if !cb.is_tripped then (cb, false)
  else (cb.reset_internal, true)

/-! ## Risk manager (`bot/core/risk_manager.py`)

Exchange balances and ticker prices reach `get_trade_amount` through
`get_total_capital()`, `get_available_krw()` and the position lookup; those
collaborator reads are bundled into an environment record sampled once, and
the `Config` module constants into a configuration record. -/

structure RiskConfig where
  POSITION_WEIGHT_CAP : ℚ
  MIN_ORDER_AMOUNT : ℚ
  MAX_DCA_COUNT : ℕ
  AGGRESSIVE_MODE : Bool
deriving Repr, DecidableEq

/-- The collaborator values read during one `get_trade_amount` call:
`total_capital` from `get_total_capital()`, `free_krw` from
`get_available_krw()`, `current_value = qty * price` of the symbol's existing
holding (0 when there is no position or no price), the optional global risk
level, and the symbol's `dca_stage`. -/
structure RiskEnv where
  total_capital : ℚ
  free_krw : ℚ
  current_value : ℚ
  risk_level : Option ℚ
  dca_stage : ℕ
deriving Repr, DecidableEq

structure WeightCheckResult where
  allowed : Bool
  current_weight : ℚ
  new_weight : ℚ
  max_allowed_krw : ℚ
deriving Repr, DecidableEq

/-- `check_position_weight_cap(symbol, additional_krw)`. -/
def check_position_weight_cap (cfg : RiskConfig) (env : RiskEnv)
    (additional_krw : ℚ) : WeightCheckResult :=
  if env.total_capital ≤ 0 then
    { allowed := false, current_weight := 0, new_weight := 0, max_allowed_krw := 0 }
  else
    let current_value := env.current_value
    let current_weight := current_value / env.total_capital
    let new_weight := (current_value + additional_krw) / env.total_capital
    let max_weight := cfg.POSITION_WEIGHT_CAP
    let max_allowed_krw := max 0 (max_weight * env.total_capital - current_value)
    { allowed := new_weight ≤ max_weight
      current_weight := current_weight
      new_weight := new_weight
      max_allowed_krw := max_allowed_krw }

/-- `check_dca_limit(symbol)` distilled to its `allowed` field (the position
exists on every call path we verify). -/
def check_dca_limit_allowed (cfg : RiskConfig) (dca_stage : ℕ) : Bool :=
  0 < cfg.MAX_DCA_COUNT - dca_stage

/-- `_get_confidence_multiplier(ai_confidence)`: discrete tiers, iterated
from the highest threshold down. -/
def confidence_multiplier (ai_confidence : ℚ) : ℚ :=
  if 0.85 ≤ ai_confidence then 1.5
  else if 0.70 ≤ ai_confidence then 1.2
  else if 0.60 ≤ ai_confidence then 1.0
  else if 0 ≤ ai_confidence then 0.7
  else 0.7

/-- Steps 7–9 of `get_trade_amount`: the position-weight clamp, the DCA
count veto, the free-balance clamp and the minimum-notional floor, applied
to the multiplier-adjusted target. -/
def get_trade_amountClamp (cfg : RiskConfig) (env : RiskEnv) (is_dca : Bool)
    (target5 : ℚ) : ℚ :=
  let weight_check := check_position_weight_cap cfg env target5
  let target6 := if weight_check.allowed then target5 else weight_check.max_allowed_krw
  if is_dca && !(check_dca_limit_allowed cfg env.dca_stage) then 0
  else
    let final_amt := min target6 (env.free_krw * 0.85)
    if final_amt < cfg.MIN_ORDER_AMOUNT then 0
    else max 0 final_amt

/-- Steps 5–6 of `get_trade_amount` (after the BTC-mode veto): the
time-of-day and confidence multipliers, then the clamps above. -/
def get_trade_amountTail (cfg : RiskConfig) (env : RiskEnv) (is_dca : Bool)
    (time_position_mult : Option ℚ) (ai_confidence : ℚ) (target : ℚ) : ℚ :=
  let target4 := match time_position_mult with
    | none => target
    | some time_mult => if time_mult = 1.0 then target else target * time_mult
  let conf_mult := confidence_multiplier ai_confidence
  let target5 := if conf_mult = 1.0 then target4 else target4 * conf_mult
  get_trade_amountClamp cfg env is_dca target5

/-- `get_trade_amount(symbol, pf_weight, is_dca, btc_mode, time_config,
ai_confidence)`.  `btc_position_mult` is `btc_mode["position_mult"]` when a
BTC-mode dict is passed, `time_position_mult` is
`time_config["position_mult"]` likewise. -/
def get_trade_amount (cfg : RiskConfig) (env : RiskEnv) (pf_weight : ℚ)
    (is_dca : Bool) (btc_position_mult : Option ℚ) (time_position_mult : Option ℚ)
    (ai_confidence : ℚ) : ℚ :=
  let target0 := env.total_capital * pf_weight
  let target1 := if cfg.AGGRESSIVE_MODE then target0 * 1.4 else target0
  let target2 := match env.risk_level with
    | none => target1
    | some risk_level =>
        if 0.7 < risk_level then target1 * 0.4
        else if 0.5 < risk_level then target1 * 0.7
        else if cfg.AGGRESSIVE_MODE then target1 * 1.3
        else target1
  match btc_position_mult with
  | some position_mult =>
      if position_mult ≤ 0 then 0
      else
        get_trade_amountTail cfg env is_dca time_position_mult ai_confidence
          (target2 * position_mult)
  | none =>
      get_trade_amountTail cfg env is_dca time_position_mult ai_confidence target2

/-! ## TTL cache (`bot/utils/cache.py`)

`time.time()` is again an explicit rational instant; the backing dict is an
association list.  A `get_or_set` call's factory is represented by the value
it would produce (`none` for a factory returning `None`). -/

structure CacheEntry (α : Type) where
  value : α
  expires_at : ℚ
  created_at : ℚ
  hits : ℕ
deriving Repr, DecidableEq

structure CacheStats where
  hits : ℕ
  misses : ℕ
  sets : ℕ
  deletes : ℕ
  expirations : ℕ
deriving Repr, DecidableEq

structure CacheManager (α : Type) where
  default_ttl : ℚ
  cache : List (String × CacheEntry α)
  stats : CacheStats
deriving Repr, DecidableEq

/-- `get(key)` at instant `now`: lazily evict an expired entry, count the
hit / miss, and return the stored value if still valid. -/
def CacheManager.get (c : CacheManager α) (now : ℚ) (key : String) :
    CacheManager α × Option α :=
  match assocFind key c.cache with
  | none =>
      ({ c with stats := { c.stats with misses := c.stats.misses + 1 } }, none)
  | some entry =>
      if entry.expires_at < now then
        ({ c with
            cache := assocErase key c.cache
            stats := { c.stats with
              misses := c.stats.misses + 1
              expirations := c.stats.expirations + 1 } }, none)
      else
        ({ c with
            cache := assocSet key { entry with hits := entry.hits + 1 } c.cache
            stats := { c.stats with hits := c.stats.hits + 1 } }, some entry.value)

/-- `set(key, value, ttl)` at instant `now` (`ttl = none` uses the default). -/
def CacheManager.set (c : CacheManager α) (now : ℚ) (key : String) (value : α)
    (ttl : Option ℚ) : CacheManager α :=
  { c with
      cache := assocSet key
        { value := value
          expires_at := now + ttl.getD c.default_ttl
          created_at := now
          hits := 0 } c.cache
      stats := { c.stats with sets := c.stats.sets + 1 } }

/-- `get_or_set(key, factory, ttl)` at instant `now`, with `factoryResult`
the value the factory produces when invoked. -/
def CacheManager.get_or_set (c : CacheManager α) (now : ℚ) (key : String)
    (factoryResult : Option α) (ttl : Option ℚ) : CacheManager α × Option α :=
  let (c1, v) := c.get now key
  match v with
  | some value => (c1, some value)
  | none =>
      match factoryResult with
      | some value => (c1.set now key value ttl, some value)
      | none => (c1, none)

/-! ## Execution engine (`bot/core/execution_engine.py`)

The engine's mutable state is the position store plus the
`sl_pending_symbols` approval-guard set.  Exchange reads (`_get_price`,
`_get_actual_balance`, order responses) are an environment record; order
submissions are recorded as explicit events.  Values are exact rationals, so
`_safe_float` on a well-typed field is the identity and is not re-modelled. -/

/-- `_calculate_dynamic_tp_multiplier(ai_decision)`: the decision dict is
reduced to the two fields read — `btc_mode["tp_mult"]` (when a `btc_mode`
dict is present) and `confidence`. -/
def dynamic_tp_multiplier (btc_tp_mult : Option ℚ) (confidence : ℚ) : ℚ :=
  let tp_mult : ℚ := 1.0
  let tp_mult := match btc_tp_mult with
    | none => tp_mult
    | some m => tp_mult * m
  let tp_mult :=
    if 0.85 ≤ confidence then tp_mult * 1.1
    else if 0.70 ≤ confidence then tp_mult * 1.05
    else tp_mult
  min tp_mult 1.5

/-- The defaulted base TP ratio: `0.02` when the argument is `None` or
non-positive. -/
def defaultBaseRatio (base_ratio : Option ℚ) : ℚ :=
  match base_ratio with
  | none => 0.02
  | some r => if r ≤ 0 then 0.02 else r

/-- `_build_tp_levels(entry_price, base_ratio, ai_decision)`: the fixed
three-tier configuration (multipliers 0.6 / 1.0 / 1.6, portions 0.5 / 0.3 /
0.2), each target price rounded to 2 decimals.  `base_ratio = none` models a
`None` argument; `tp_multiplier` is `_calculate_dynamic_tp_multiplier`'s
result (1.0 when `ai_decision` is empty). -/
def build_tp_levels (entry_price : ℚ) (base_ratio : Option ℚ)
    (tp_multiplier : ℚ) : List TpLevel :=
  let base := defaultBaseRatio base_ratio
  let adjusted_ratio := min (base * tp_multiplier) 0.15
  [ { id := 1, price := pyRound 2 (entry_price * (1.0 + adjusted_ratio * 0.6)),
      portion := 0.5, executed := false },
    { id := 2, price := pyRound 2 (entry_price * (1.0 + adjusted_ratio * 1.0)),
      portion := 0.3, executed := false },
    { id := 3, price := pyRound 2 (entry_price * (1.0 + adjusted_ratio * 1.6)),
      portion := 0.2, executed := false } ]

/-- Orders the sweep sends while walking the ladder. -/
inductive TpAction where
  | partialSell (qty : ℚ)
  | fullClose
deriving Repr, DecidableEq

/-- Result of the `for i, lvl in enumerate(levels)` loop of
`_handle_tp_levels`: the walked ladder, the running quantity, the trailing
record, the `changed` flag, the orders sent, and whether the last tier's
full close fired (the `return True` path). -/
structure TpLoopOut where
  levels : List TpLevel
  qty : ℚ
  trailing : Option TrailingInfo
  changed : Bool
  actions : List TpAction
  closed : Bool
deriving Repr, DecidableEq

/-- The ladder-walking loop of `_handle_tp_levels`.  The list argument is the
id-sorted ladder; `rest = []` is the source's `i == len(levels) - 1` test.
The partial-sell branch assumes the `create_limit_sell` call succeeds (an
exception there only breaks the loop earlier). -/
def handleTpLoop (price initial_qty : ℚ) :
    List TpLevel → ℚ → Option TrailingInfo → Bool → TpLoopOut
  | [], qty, tr, changed => ⟨[], qty, tr, changed, [], false⟩
  | lvl :: rest, qty, tr, changed =>
    if lvl.executed then
      let o := handleTpLoop price initial_qty rest qty tr changed
      { o with levels := lvl :: o.levels }
    else if lvl.price ≤ 0 ∨ lvl.portion ≤ 0 then
      let o := handleTpLoop price initial_qty rest qty tr changed
      { o with levels := lvl :: o.levels }
    else if price < lvl.price then
      ⟨lvl :: rest, qty, tr, changed, [], false⟩
    else if rest.isEmpty then
      ⟨lvl :: rest, qty, tr, changed, [TpAction.fullClose], true⟩
    else
      let sell_qty0 := pyRound 6 (initial_qty * lvl.portion)
      let sell_qty := if qty < sell_qty0 then qty else sell_qty0
      if sell_qty ≤ 0 then
        let o := handleTpLoop price initial_qty rest qty tr changed
        { o with levels := { lvl with executed := true } :: o.levels }
      else
        let qty' := qty - sell_qty
        let tr' := match tr with
          | none => none
          | some t => some { t with
              enabled := if lvl.id = 1 then true else t.enabled
              highest_price := max t.highest_price price }
        if qty' ≤ 0 then
          ⟨{ lvl with executed := true } :: rest, qty', tr', true,
            [TpAction.partialSell sell_qty], false⟩
        else
          let o := handleTpLoop price initial_qty rest qty' tr' true
          { o with
              levels := { lvl with executed := true } :: o.levels
              actions := TpAction.partialSell sell_qty :: o.actions }

/-- `_handle_tp_levels(symbol, pos, price)` as a state transformer on the
position: returns the updated record, the orders sent, the boolean result
(`True` exactly when the last tier fully closed), and whether
`update_position` was called to persist (`changed`).  The level dicts are
shared between the sorted working list and the stored record, so the
executed-flag and qty mutations are visible on the record even on paths
that never assign `pos["tp_levels"]`. -/
def handle_tp_levels (pos : Position) (price : ℚ) :
    Position × List TpAction × Bool × Bool :=
  if pos.tp_levels.isEmpty then (pos, [], false, false)
  else
    if pos.initial_qty ≤ 0 ∨ pos.qty ≤ 0 then (pos, [], false, false)
    else
      let sortedLevels := pos.tp_levels.insertionSort (fun a b => a.id ≤ b.id)
      let o := handleTpLoop price pos.initial_qty sortedLevels pos.qty pos.trailing false
      ({ pos with tp_levels := o.levels, qty := o.qty, trailing := o.trailing },
        o.actions, o.closed, o.changed)

/-- `check_trailing_stop(symbol, pos, price)`: returns the trigger verdict
and the possibly-updated position.  `none` models the `TypeError` the source
would raise computing `1 - tr["offset"]` with a `None` offset (positions the
engine opens always carry a numeric offset). -/
def check_trailing_stop (pos : Position) (price : ℚ) :
    Option (Bool × Position) :=
  match pos.trailing with
  | none => some (false, pos)
  | some tr =>
    if !tr.enabled then some (false, pos)
    else
      let highest0 := tr.highest_price
      let highest := if highest0 ≤ 0 then price else highest0
      if highest < price then
        some (false, { pos with trailing := some { tr with highest_price := price } })
      else
        match tr.offset with
        | none => none
        | some offset =>
            let trigger := highest * (1 - offset)
            some (decide (price ≤ trigger), pos)

/-- `_get_qty_precision(symbol)`: per-coin decimal places. -/
def get_qty_precision (symbol : String) : ℕ :=
  let coin := ((symbol.replace "/KRW" "").replace "-KRW" "").toUpper
  let lowPriceCoins := ["PEPE", "SHIB", "BONK", "FLOKI", "LUNC", "BTT", "WIN", "SPELL"]
  let highPriceCoins := ["BTC", "ETH"]
  if lowPriceCoins.contains coin then 0
  else if highPriceCoins.contains coin then 8
  else 4

/-- `_format_qty(symbol, qty)`: truncate to the coin's precision. -/
def format_qty (symbol : String) (qty : ℚ) : ℚ :=
  let precision := get_qty_precision symbol
  if precision = 0 then (pyInt qty : ℚ)
  else
    let factor : ℚ := (10 : ℚ) ^ precision
    (pyInt (qty * factor) : ℚ) / factor

/-- Engine state shared across sell calls: the position store and the
per-symbol pending-approval set. -/
structure EngineState where
  pm : PositionManager
  sl_pending_symbols : List String
deriving Repr, DecidableEq

/-- Collaborator values observed during one `market_sell` call. -/
structure SellEnv where
  mode : String
  price : Option ℚ
  actual_balance : ℚ
  telegram_connected : Bool
  sl_held : Bool
  order_fill : Option (ℚ × ℚ)
deriving Repr, DecidableEq

/-- Events a sell path emits toward the exchange / approval channel. -/
inductive SellEvent where
  | limitSell (qty : ℚ)
  | approvalRequested
deriving Repr, DecidableEq

/-- `_request_sell_approval(symbol, pos, current_price, reason, sell_type)`:
skip when already pending (or SL-held for SL-type requests), hold the sale
when no approval channel is connected, else mark pending and send. -/
def request_sell_approval (s : EngineState) (env : SellEnv) (symbol : String)
    (sell_type_sl : Bool) : EngineState × Bool × List SellEvent :=
  if s.sl_pending_symbols.contains symbol then (s, true, [])
  else if sell_type_sl && env.sl_held then (s, true, [])
  else if !env.telegram_connected then (s, false, [])
  else
    ({ s with sl_pending_symbols := s.sl_pending_symbols ++ [symbol] }, true,
      [SellEvent.approvalRequested])

/-- `market_sell(symbol, pos, reason, ratio, skip_approval)`.  Slippage
recording, trade logging and the risk manager's trade-result bookkeeping are
reporting-only side channels and are not carried in the state.
`env.order_fill` is the (`average`, `filled`) pair `_extract_fill_info`
resolves from the order response, `none` when the submission fails or
returns no order. -/
def market_sell (s : EngineState) (env : SellEnv) (symbol : String)
    (pos : Position) (ratio : ℚ) (skip_approval : Bool) :
    EngineState × Bool × List SellEvent :=
  match env.price with
  | none => (s, false, [])
  | some expected_price =>
    if expected_price ≤ 0 then (s, false, [])
    else
      let semiLoss :=
        if env.mode = "SEMI" && !skip_approval then
          let entry := if pos.entry_price ≤ 0 then expected_price else pos.entry_price
          let pnl_pct := (expected_price - entry) / max entry 1 * 100
          decide (pnl_pct < 0)
        else false
      if semiLoss then
        request_sell_approval s env symbol false
      else
        let actual_qty := env.actual_balance
        if actual_qty ≤ 0 then
          let s1 := { s with
            sl_pending_symbols := s.sl_pending_symbols.filter (· ≠ symbol) }
          ({ s1 with pm := (s1.pm.close_position symbol expected_price).1 }, true, [])
        else
          let sell_qty0 := if 1.0 ≤ ratio then actual_qty * 0.9995 else actual_qty * ratio
          let sell_qty := format_qty symbol sell_qty0
          if sell_qty ≤ 0 then (s, false, [])
          else
            match env.order_fill with
            | none => (s, false, [SellEvent.limitSell sell_qty])
            | some (actual_price, _) =>
                let s1 := { s with
                  sl_pending_symbols := s.sl_pending_symbols.filter (· ≠ symbol) }
                ({ s1 with pm := (s1.pm.close_position symbol actual_price).1 },
                  true, [SellEvent.limitSell sell_qty])

/-! ## Shared lemmas -/

theorem assocFind_assocSet_self (k : String) (v : α) (l : List (String × α)) :
    assocFind k (assocSet k v l) = some v := by
  induction l with
  | nil => simp [assocSet, assocFind]
  | cons p rest ih =>
      by_cases h : p.1 = k
      · simp [assocSet, assocFind, h]
      · simp [assocSet, assocFind, h, ih]

theorem assocFind_assocErase_self (k : String) (l : List (String × α)) :
    assocFind k (assocErase k l) = none := by
  induction l with
  | nil => simp [assocErase, assocFind]
  | cons p rest ih =>
      by_cases h : p.1 = k
      · simpa [assocErase, List.filter_cons, h] using ih
      · simpa [assocErase, List.filter_cons, assocFind, h] using ih

theorem fillsQty_nonneg (fills : List DcaFill) (h : ∀ f ∈ fills, 0 < f.qty) :
    0 ≤ fillsQty fills := by
  induction fills with
  | nil => simp [fillsQty]
  | cons f fs ih =>
      have h1 : 0 < f.qty := h f (List.mem_cons_self f fs)
      have h2 := ih (fun g hg => h g (List.mem_cons_of_mem f hg))
      simp only [fillsQty, List.map_cons, List.sum_cons] at *
      linarith

theorem afterDcaFills_avg (fills : List DcaFill) :
    ∀ pos : Position, 0 < pos.qty → (∀ f ∈ fills, 0 < f.qty) →
      (pos.afterDcaFills fills).qty = pos.qty + fillsQty fills ∧
      (pos.afterDcaFills fills).entry_price
        = (pos.qty * pos.entry_price + fillsCost fills) / (pos.qty + fillsQty fills) := by
  induction fills with
  | nil =>
      intro pos hq _
      refine ⟨by simp [Position.afterDcaFills, fillsQty], ?_⟩
      simp only [Position.afterDcaFills, List.foldl_nil, fillsCost, fillsQty,
        List.map_nil, List.sum_nil, add_zero]
      rw [mul_comm, mul_div_assoc, div_self (ne_of_gt hq), mul_one]
  | cons f fs ih =>
      intro pos hq hf
      have hfq : 0 < f.qty := hf f (List.mem_cons_self f fs)
      have hq' : 0 < (pos.applyDca f.qty f.price).qty := by
        show 0 < pos.qty + f.qty
        linarith
      obtain ⟨hqty, hentry⟩ :=
        ih (pos.applyDca f.qty f.price) hq' (fun g hg => hf g (List.mem_cons_of_mem f hg))
      have hfold : pos.afterDcaFills (f :: fs)
          = (pos.applyDca f.qty f.price).afterDcaFills fs := rfl
      have hQ : (pos.applyDca f.qty f.price).qty = pos.qty + f.qty := rfl
      have hE : (pos.applyDca f.qty f.price).entry_price
          = (pos.qty * pos.entry_price + f.qty * f.price) / (pos.qty + f.qty) := rfl
      have hfsq : 0 ≤ fillsQty fs :=
        fillsQty_nonneg fs (fun g hg => hf g (List.mem_cons_of_mem f hg))
      have hne : pos.qty + f.qty ≠ 0 := ne_of_gt (by linarith)
      have hne2 : pos.qty + f.qty + fillsQty fs ≠ 0 := ne_of_gt (by linarith)
      constructor
      · rw [hfold, hqty, hQ]
        simp only [fillsQty, List.map_cons, List.sum_cons]
        ring
      · rw [hfold, hentry, hQ, hE]
        simp only [fillsCost, fillsQty, List.map_cons, List.sum_cons]
        rw [mul_comm (pos.qty + f.qty), div_mul_cancel₀ _ hne]
        rw [show pos.qty + f.qty + ((fs.map fun g => g.qty).sum)
              = pos.qty + (f.qty + (fs.map fun g => g.qty).sum) by ring]
        rw [add_assoc]

/-- A concrete position record used by witnesses and counterexamples. -/
def samplePos : Position :=
  { qty := 10, entry_price := 100, tp := 0, sl := 0, ai_tp := 0, ai_sl := 0,
    dca_stage := 0, dca_history := [], initial_qty := 10, tp_levels := [],
    trailing := none }

/-! ## Claim C1 — DCA averaging -/

/-- Claim C1: for a stored position with quantity `q0 > 0` and entry price
`p0`, a DCA fill of quantity `q > 0` at price `p` through `add_dca` rewrites
the entry price to `(q0*p0 + q*p)/(q0+q)`, the quantity to `q0+q` and bumps
`dca_stage` by exactly one; folding any sequence of DCA fills over a position
leaves `entry_price` equal to the fill-volume-weighted average price of all
fills; and for `q0=10, p0=100, q=5, p=70` the new entry price is `90` and the
new `dca_stage` is `1`. -/
theorem add_dca_volume_weighted_average :
    (∀ (pm : PositionManager) (symbol : String) (pos : Position) (q p : ℚ),
        pm.get_position symbol = some pos →
        pm.add_dca symbol q p
            = ({ positions := assocSet symbol (pos.applyDca q p) pm.positions }, true)
          ∧ (PositionManager.mk
              (assocSet symbol (pos.applyDca q p) pm.positions)).get_position symbol
              = some (pos.applyDca q p)) ∧
    (∀ (pos : Position) (q p : ℚ), 0 < pos.qty → 0 < q →
        (pos.applyDca q p).entry_price
            = (pos.qty * pos.entry_price + q * p) / (pos.qty + q)
          ∧ (pos.applyDca q p).qty = pos.qty + q
          ∧ (pos.applyDca q p).dca_stage = pos.dca_stage + 1) ∧
    (∀ (pos : Position) (fills : List DcaFill), 0 < pos.qty →
        (∀ f ∈ fills, 0 < f.qty) →
        (pos.afterDcaFills fills).entry_price
            = (pos.qty * pos.entry_price + fillsCost fills)
                / (pos.qty + fillsQty fills)) ∧
    ((samplePos.applyDca 5 70).entry_price = 90
      ∧ (samplePos.applyDca 5 70).qty = 15
      ∧ (samplePos.applyDca 5 70).dca_stage = 1) := by
  refine ⟨?_, ?_, ?_, ?_⟩
  · intro pm symbol pos q p hfind
    have h : assocFind symbol pm.positions = some pos := hfind
    constructor
    · simp [PositionManager.add_dca, h]
    · exact assocFind_assocSet_self symbol _ pm.positions
  · intro pos q p _ _
    exact ⟨rfl, rfl, rfl⟩
  · intro pos fills hq hf
    exact (afterDcaFills_avg fills pos hq hf).2
  · refine ⟨?_, ?_, rfl⟩
    · show (10 * 100 + 5 * 70 : ℚ) / (10 + 5) = 90
      norm_num
    · show (10 : ℚ) + 5 = 15
      norm_num

/-- Witness for C1 at concrete inputs. -/
theorem add_dca_volume_weighted_average_witness :
    ((samplePos.applyDca 5 70).entry_price
        = (samplePos.qty * samplePos.entry_price + 5 * 70) / (samplePos.qty + 5))
      ∧ ((samplePos.afterDcaFills [⟨5, 70⟩]).entry_price
          = (samplePos.qty * samplePos.entry_price + fillsCost [⟨5, 70⟩])
              / (samplePos.qty + fillsQty [⟨5, 70⟩])) := by
  have h1 : (0:ℚ) < samplePos.qty := by norm_num [samplePos]
  refine ⟨(add_dca_volume_weighted_average.2.1 samplePos 5 70 h1 (by norm_num)).1, ?_⟩
  exact add_dca_volume_weighted_average.2.2.1 samplePos [⟨5, 70⟩] h1 (by decide)

/-! ## Claim C7 — open_position on an existing symbol -/

/-- A store that already holds a position for `"BTC/KRW"`. -/
def samplePM : PositionManager := { positions := [("BTC/KRW", samplePos)] }

/-- Counterexample to claim C7 as stated: with a position already stored for
the symbol, `open_position` still reports success and replaces the stored
record (there is no existence check in the source). -/
theorem open_position_existing_counterexample :
    samplePM.has_position "BTC/KRW" = true
      ∧ (samplePM.open_position "BTC/KRW" 2 200 0 0 0 0 none []).2 = true
      ∧ (samplePM.open_position "BTC/KRW" 2 200 0 0 0 0 none []).1.get_position "BTC/KRW"
          ≠ some samplePos := by
  refine ⟨rfl, rfl, ?_⟩
  decide

/-- Claim C7 (amended): `open_position` never fails — also when a position
already exists for the symbol it reports success and unconditionally
replaces the stored record with the freshly built one (checking for an
existing position is the caller's responsibility); the default trailing
record starts disabled. -/
theorem open_position_always_replaces
    (pm : PositionManager) (symbol : String) (qty price stp ssl atp asl : ℚ)
    (lvls : List TpLevel) :
    (pm.open_position symbol qty price stp ssl atp asl none lvls).2 = true
    ∧ (pm.open_position symbol qty price stp ssl atp asl none lvls).1.get_position symbol
        = some { qty := qty, entry_price := price, tp := stp, sl := ssl,
                 ai_tp := atp, ai_sl := asl, dca_stage := 0, dca_history := [],
                 initial_qty := qty, tp_levels := lvls,
                 trailing := some { enabled := false, trigger := none,
                                    offset := none, highest_price := price } } :=
  ⟨rfl, assocFind_assocSet_self _ _ _⟩

/-! ## Claims C2 and C8 — rate limiter -/

theorem acquireNoWait_granted_eq (rl : RateLimiter) (now : ℚ)
    (h : (rl.calls.dropWhile (fun x => x < now - rl.per_seconds)).length < rl.max_calls) :
    rl.acquireNoWait now
      = ({ rl with
            calls := rl.calls.dropWhile (fun x => x < now - rl.per_seconds) ++ [now]
            stats := { rl.stats with total_calls := rl.stats.total_calls + 1 } }, true) := by
  simp [RateLimiter.acquireNoWait, RateLimiter.cleanup_old_calls, h]

theorem acquireNoWait_blocked_eq (rl : RateLimiter) (now : ℚ)
    (h : ¬ (rl.calls.dropWhile (fun x => x < now - rl.per_seconds)).length < rl.max_calls) :
    rl.acquireNoWait now
      = ({ rl with
            calls := rl.calls.dropWhile (fun x => x < now - rl.per_seconds)
            stats := { rl.stats with
              rate_limit_hits := rl.stats.rate_limit_hits + 1
              blocked_calls := rl.stats.blocked_calls + 1 } }, false) := by
  simp [RateLimiter.acquireNoWait, RateLimiter.cleanup_old_calls, h]

theorem runAcquireSeq_cons (rl : RateLimiter) (t : ℚ) (ts : List ℚ) :
    rl.runAcquireSeq (t :: ts)
      = (((rl.acquireNoWait t).1.runAcquireSeq ts).1,
          if (rl.acquireNoWait t).2
          then t :: ((rl.acquireNoWait t).1.runAcquireSeq ts).2
          else ((rl.acquireNoWait t).1.runAcquireSeq ts).2) := rfl

theorem runAcquireSeq_cons_granted (rl : RateLimiter) (t : ℚ) (ts : List ℚ)
    (h : (rl.acquireNoWait t).2 = true) :
    (rl.runAcquireSeq (t :: ts)).2
      = t :: ((rl.acquireNoWait t).1.runAcquireSeq ts).2 := by
  rw [runAcquireSeq_cons]
  simp [h]

theorem runAcquireSeq_cons_blocked (rl : RateLimiter) (t : ℚ) (ts : List ℚ)
    (h : (rl.acquireNoWait t).2 = false) :
    (rl.runAcquireSeq (t :: ts)).2
      = ((rl.acquireNoWait t).1.runAcquireSeq ts).2 := by
  rw [runAcquireSeq_cons]
  simp [h]

/-- The sliding-window safety invariant for a serialized run of admission
checks.  `dropped` holds the timestamps the limiter already purged: every
purged timestamp lies strictly below the cutoff of every pending instant,
every retained timestamp is no later than every pending instant, and the
grants so far (`dropped ++ rl.calls`) already satisfy the window bound. -/
theorem runAcquireSeq_window_invariant (W : ℚ) (M : ℕ) :
    ∀ (ts : List ℚ) (rl : RateLimiter) (dropped : List ℚ),
      rl.per_seconds = W → rl.max_calls = M →
      List.Sorted (· ≤ ·) ts →
      (∀ d ∈ dropped, ∀ t ∈ ts, d < t - W) →
      (∀ c ∈ rl.calls, ∀ t ∈ ts, c ≤ t) →
      (∀ T' : ℚ, (dropped ++ rl.calls).countP (fun g => decide (inWindow W T' g)) ≤ M) →
      ∀ T : ℚ,
        (dropped ++ rl.calls ++ (rl.runAcquireSeq ts).2).countP
          (fun g => decide (inWindow W T g)) ≤ M := by
  intro ts
  induction ts with
  | nil =>
      intro rl dropped _ _ _ _ _ hbound T
      simpa [RateLimiter.runAcquireSeq] using hbound T
  | cons t ts ih =>
      intro rl dropped hW hM hsorted hdrop hcalls hbound T
      obtain ⟨hts, hsorted'⟩ := List.sorted_cons.mp hsorted
      have hsplit : rl.calls.takeWhile (fun x => decide (x < t - W))
          ++ rl.calls.dropWhile (fun x => decide (x < t - W)) = rl.calls :=
        List.takeWhile_append_dropWhile _ _
      have hgone_lt : ∀ d ∈ rl.calls.takeWhile (fun x => decide (x < t - W)), d < t - W := by
        intro d hd
        simpa using List.mem_takeWhile_imp hd
      have hkeep_sub : ∀ c ∈ rl.calls.dropWhile (fun x => decide (x < t - W)), c ∈ rl.calls :=
        fun c hc => (List.dropWhile_sublist _).subset hc
      have hdrop' : ∀ d ∈ dropped ++ rl.calls.takeWhile (fun x => decide (x < t - W)),
          ∀ t' ∈ ts, d < t' - W := by
        intro d hd t' ht'
        rcases List.mem_append.mp hd with h | h
        · exact hdrop d h t' (List.mem_cons_of_mem _ ht')
        · have h1 : d < t - W := hgone_lt d h
          have h2 : t ≤ t' := hts t' ht'
          linarith
      by_cases hlen : (rl.calls.dropWhile (fun x => decide (x < t - W))).length < M
      · -- the admission at `t` is granted
        have hstep : rl.acquireNoWait t
            = ({ rl with
                  calls := rl.calls.dropWhile (fun x => x < t - rl.per_seconds) ++ [t]
                  stats := { rl.stats with total_calls := rl.stats.total_calls + 1 } },
                true) :=
          acquireNoWait_granted_eq rl t (by rw [hW, hM]; exact hlen)
        have hcalls1 : (rl.acquireNoWait t).1.calls
            = rl.calls.dropWhile (fun x => decide (x < t - W)) ++ [t] := by
          rw [hstep, hW]
        have hW1 : (rl.acquireNoWait t).1.per_seconds = W := by rw [hstep]; exact hW
        have hM1 : (rl.acquireNoWait t).1.max_calls = M := by rw [hstep]; exact hM
        have hgr : (rl.acquireNoWait t).2 = true := by rw [hstep]
        have hcalls' : ∀ c ∈ (rl.acquireNoWait t).1.calls, ∀ t' ∈ ts, c ≤ t' := by
          intro c hc t' ht'
          rw [hcalls1] at hc
          rcases List.mem_append.mp hc with h | h
          · exact hcalls c (hkeep_sub c h) t' (List.mem_cons_of_mem _ ht')
          · have hct : c = t := by simpa using h
            rw [hct]
            exact hts t' ht'
        have hbound' : ∀ T' : ℚ,
            ((dropped ++ rl.calls.takeWhile (fun x => decide (x < t - W)))
              ++ (rl.acquireNoWait t).1.calls).countP
                (fun g => decide (inWindow W T' g)) ≤ M := by
          intro T'
          rw [hcalls1]
          have hDC : (dropped ++ rl.calls).countP (fun g => decide (inWindow W T' g))
              = dropped.countP (fun g => decide (inWindow W T' g))
                + ((rl.calls.takeWhile (fun x => decide (x < t - W))).countP
                    (fun g => decide (inWindow W T' g))
                  + (rl.calls.dropWhile (fun x => decide (x < t - W))).countP
                    (fun g => decide (inWindow W T' g))) := by
            conv_lhs => rw [← hsplit]
            rw [List.countP_append, List.countP_append]
          by_cases hwin : inWindow W T' t
          · have hmono : ∀ g ∈ dropped ++ rl.calls,
                decide (inWindow W T' g) = true → decide (t - W ≤ g) = true := by
              intro g _ hg
              have hg' := of_decide_eq_true hg
              have h1 : T' - W ≤ g := hg'.1
              have h2 : t ≤ T' := hwin.2
              exact decide_eq_true (by linarith)
            have h1 : (dropped ++ rl.calls).countP (fun g => decide (inWindow W T' g))
                ≤ (dropped ++ rl.calls).countP (fun g => decide (t - W ≤ g)) :=
              List.countP_mono_left hmono
            have hdropped0 : dropped.countP (fun g => decide (t - W ≤ g)) = 0 := by
              rw [List.countP_eq_zero]
              intro d hd
              have h3 := hdrop d hd t (List.mem_cons_self _ _)
              simp only [decide_eq_true_eq, not_le]
              linarith
            have hgone0 : (rl.calls.takeWhile (fun x => decide (x < t - W))).countP
                (fun g => decide (t - W ≤ g)) = 0 := by
              rw [List.countP_eq_zero]
              intro d hd
              have h3 := hgone_lt d hd
              simp only [decide_eq_true_eq, not_le]
              linarith
            have h2 : (dropped ++ rl.calls).countP (fun g => decide (t - W ≤ g))
                = dropped.countP (fun g => decide (t - W ≤ g))
                  + ((rl.calls.takeWhile (fun x => decide (x < t - W))).countP
                      (fun g => decide (t - W ≤ g))
                    + (rl.calls.dropWhile (fun x => decide (x < t - W))).countP
                      (fun g => decide (t - W ≤ g))) := by
              conv_lhs => rw [← hsplit]
              rw [List.countP_append, List.countP_append]
            have h4 : (rl.calls.dropWhile (fun x => decide (x < t - W))).countP
                (fun g => decide (t - W ≤ g))
                ≤ (rl.calls.dropWhile (fun x => decide (x < t - W))).length :=
              List.countP_le_length _
            have hwt : decide (inWindow W T' t) = true := decide_eq_true hwin
            simp [List.countP_append, List.countP_cons, List.countP_nil, hwt]
            rw [h2, hdropped0, hgone0] at h1
            rw [hDC] at h1
            omega
          · have hwt : decide (inWindow W T' t) = false := decide_eq_false hwin
            have h5 := hbound T'
            rw [hDC] at h5
            simp [List.countP_append, List.countP_cons, List.countP_nil, hwt]
            omega
        have hmain := ih (rl.acquireNoWait t).1
          (dropped ++ rl.calls.takeWhile (fun x => decide (x < t - W)))
          hW1 hM1 hsorted' hdrop' hcalls' hbound' T
        rw [runAcquireSeq_cons_granted rl t ts hgr]
        rw [hcalls1] at hmain
        have hDC : (dropped ++ rl.calls
            ++ (t :: ((rl.acquireNoWait t).1.runAcquireSeq ts).2)).countP
              (fun g => decide (inWindow W T g))
            = (dropped ++ (rl.calls.takeWhile (fun x => decide (x < t - W))
                ++ ((rl.calls.dropWhile (fun x => decide (x < t - W)) ++ [t])
                  ++ ((rl.acquireNoWait t).1.runAcquireSeq ts).2))).countP
                (fun g => decide (inWindow W T g)) := by
          have hs2 : rl.calls.countP (fun g => decide (inWindow W T g))
              = (rl.calls.takeWhile (fun x => decide (x < t - W))).countP
                  (fun g => decide (inWindow W T g))
                + (rl.calls.dropWhile (fun x => decide (x < t - W))).countP
                  (fun g => decide (inWindow W T g)) := by
            conv_rhs => rw [← List.countP_append]
            rw [List.takeWhile_append_dropWhile]
          simp only [List.countP_append, List.countP_cons, List.countP_nil]
          omega
        rw [hDC]
        simpa only [List.append_assoc] using hmain
      · -- the admission at `t` is blocked
        have hstep : rl.acquireNoWait t
            = ({ rl with
                  calls := rl.calls.dropWhile (fun x => x < t - rl.per_seconds)
                  stats := { rl.stats with
                    rate_limit_hits := rl.stats.rate_limit_hits + 1
                    blocked_calls := rl.stats.blocked_calls + 1 } }, false) :=
          acquireNoWait_blocked_eq rl t (by rw [hW, hM]; exact hlen)
        have hcalls1 : (rl.acquireNoWait t).1.calls
            = rl.calls.dropWhile (fun x => decide (x < t - W)) := by
          rw [hstep, hW]
        have hW1 : (rl.acquireNoWait t).1.per_seconds = W := by rw [hstep]; exact hW
        have hM1 : (rl.acquireNoWait t).1.max_calls = M := by rw [hstep]; exact hM
        have hgr : (rl.acquireNoWait t).2 = false := by rw [hstep]
        have hcalls' : ∀ c ∈ (rl.acquireNoWait t).1.calls, ∀ t' ∈ ts, c ≤ t' := by
          intro c hc t' ht'
          rw [hcalls1] at hc
          exact hcalls c (hkeep_sub c hc) t' (List.mem_cons_of_mem _ ht')
        have hbound' : ∀ T' : ℚ,
            ((dropped ++ rl.calls.takeWhile (fun x => decide (x < t - W)))
              ++ (rl.acquireNoWait t).1.calls).countP
                (fun g => decide (inWindow W T' g)) ≤ M := by
          intro T'
          rw [hcalls1]
          have hs2 : rl.calls.countP (fun g => decide (inWindow W T' g))
              = (rl.calls.takeWhile (fun x => decide (x < t - W))).countP
                  (fun g => decide (inWindow W T' g))
                + (rl.calls.dropWhile (fun x => decide (x < t - W))).countP
                  (fun g => decide (inWindow W T' g)) := by
            conv_rhs => rw [← List.countP_append]
            rw [List.takeWhile_append_dropWhile]
          have h5 := hbound T'
          rw [List.countP_append] at h5
          simp only [List.countP_append]
          omega
        have hmain := ih (rl.acquireNoWait t).1
          (dropped ++ rl.calls.takeWhile (fun x => decide (x < t - W)))
          hW1 hM1 hsorted' hdrop' hcalls' hbound' T
        rw [runAcquireSeq_cons_blocked rl t ts hgr]
        rw [hcalls1] at hmain
        have hs2 : rl.calls.countP (fun g => decide (inWindow W T g))
            = (rl.calls.takeWhile (fun x => decide (x < t - W))).countP
                (fun g => decide (inWindow W T g))
              + (rl.calls.dropWhile (fun x => decide (x < t - W))).countP
                (fun g => decide (inWindow W T g)) := by
          conv_rhs => rw [← List.countP_append]
          rw [List.takeWhile_append_dropWhile]
        rw [List.countP_append, List.countP_append] at hmain ⊢
        simp only [List.countP_append] at hmain ⊢
        omega

/-- Claim C2: starting from a fresh limiter, for every sequence of admission
checks at non-decreasing instants, the number of granted calls whose grant
instants fall inside any trailing window `[T - window, T]` never exceeds
`max_calls`. -/
theorem acquire_sliding_window_bound
    (rl : RateLimiter) (ts : List ℚ)
    (hcalls : rl.calls = [])
    (hsorted : List.Sorted (· ≤ ·) ts) (T : ℚ) :
    ((rl.runAcquireSeq ts).2).countP (fun g => decide (inWindow rl.per_seconds T g))
      ≤ rl.max_calls := by
  have h := runAcquireSeq_window_invariant rl.per_seconds rl.max_calls ts rl []
    rfl rfl hsorted (by intro d hd; cases hd)
    (by intro c hc; rw [hcalls] at hc; cases hc)
    (by intro T'; simp [hcalls]) T
  simpa [hcalls] using h

/-- Witness for C2: `max_calls = 3`, `window = 60`, four checks at instants
`0, 0, 0, 10` — the grants inside the trailing window ending at `10` count
at most 3. -/
theorem acquire_sliding_window_bound_witness :
    (((RateLimiter.mk 3 60 [] ⟨0, 0, 0, 0⟩).runAcquireSeq [0, 0, 0, 10]).2).countP
      (fun g => decide (inWindow (60 : ℚ) 10 g)) ≤ 3 := by
  have h := acquire_sliding_window_bound (RateLimiter.mk 3 60 [] ⟨0, 0, 0, 0⟩)
    [0, 0, 0, 10] rfl (by decide) 10
  simpa using h

theorem sorted_dropWhile_lt_eq_filter (c : ℚ) :
    ∀ l : List ℚ, List.Sorted (· ≤ ·) l →
      l.dropWhile (fun x => decide (x < c)) = l.filter (fun x => decide (c ≤ x)) := by
  intro l
  induction l with
  | nil => intro _; rfl
  | cons a l ih =>
      intro hs
      obtain ⟨ha, hl⟩ := List.sorted_cons.mp hs
      by_cases h : a < c
      · have h' : ¬ c ≤ a := not_le.mpr h
        simp [List.dropWhile_cons, List.filter_cons, h, h', ih hl]
      · have h' : c ≤ a := not_lt.mp h
        have hfl : l.filter (fun x => decide (c ≤ x)) = l :=
          List.filter_eq_self.mpr (fun b hb => decide_eq_true (le_trans h' (ha b hb)))
        simp [List.dropWhile_cons, List.filter_cons, h, h', hfl]

/-- The limiter of the spec's scenario 1: `max_calls = 3`, `window = 60s`. -/
def scenarioLimiter : RateLimiter := ⟨3, 60, [], ⟨0, 0, 0, 0⟩⟩

/-- Claim C8: the `acquire` contract.  With the recorded timestamps sorted
(as they always are, being recorded in time order): purging drops exactly
the timestamps older than `now - window`; if fewer than `max_calls` remain
the call records `now` and reports granted; otherwise a `wait=False` call
reports refused and bumps the blocked counter; a `wait=True` call whose
(full) window still strictly contains the oldest timestamp sleeps until
that timestamp leaves the window and then succeeds, at
`oldest + window + 0.1`; and in the concrete scenario (`max_calls = 3`,
`window = 60`) three immediate calls succeed and a fourth waiting call
succeeds at instant `60.1`. -/
theorem acquire_contract :
    (∀ (rl : RateLimiter) (now : ℚ), List.Sorted (· ≤ ·) rl.calls →
      (rl.calls.countP (fun c => decide (now - rl.per_seconds ≤ c)) < rl.max_calls →
        rl.acquireNoWait now
          = ({ rl with
                calls := rl.calls.filter (fun c => decide (now - rl.per_seconds ≤ c)) ++ [now]
                stats := { rl.stats with total_calls := rl.stats.total_calls + 1 } },
              true))
      ∧ (¬ rl.calls.countP (fun c => decide (now - rl.per_seconds ≤ c)) < rl.max_calls →
        rl.acquireNoWait now
          = ({ rl with
                calls := rl.calls.filter (fun c => decide (now - rl.per_seconds ≤ c))
                stats := { rl.stats with
                  rate_limit_hits := rl.stats.rate_limit_hits + 1
                  blocked_calls := rl.stats.blocked_calls + 1 } },
              false))) ∧
    (∀ (rl : RateLimiter) (now oldest : ℚ) (rest : List ℚ),
      List.Sorted (· ≤ ·) rl.calls →
      rl.calls = oldest :: rest →
      rl.calls.length = rl.max_calls →
      now - rl.per_seconds < oldest →
      ∃ rl', rl.acquireWait now
        = some (rl', true, oldest + rl.per_seconds + 1/10)) ∧
    ((scenarioLimiter.runAcquireSeq [0, 0, 0]).2 = [0, 0, 0]
      ∧ ((scenarioLimiter.runAcquireSeq [0, 0, 0]).1.acquireWait 0).map
          (fun r => (r.2.1, r.2.2)) = some (true, 601/10)) := by
  have hchar : ∀ (rl : RateLimiter) (now : ℚ), List.Sorted (· ≤ ·) rl.calls →
      (rl.calls.dropWhile (fun x => decide (x < now - rl.per_seconds))).length
        = rl.calls.countP (fun c => decide (now - rl.per_seconds ≤ c)) := by
    intro rl now hs
    rw [sorted_dropWhile_lt_eq_filter _ _ hs]
    exact (List.countP_eq_length_filter _ _).symm
  refine ⟨?_, ?_,
    by norm_num [scenarioLimiter, RateLimiter.runAcquireSeq, RateLimiter.acquireNoWait,
      RateLimiter.cleanup_old_calls],
    by norm_num [scenarioLimiter, RateLimiter.runAcquireSeq, RateLimiter.acquireNoWait,
      RateLimiter.cleanup_old_calls, RateLimiter.acquireWait]⟩
  · intro rl now hs
    constructor
    · intro hlt
      have h1 : (rl.calls.dropWhile (fun x => decide (x < now - rl.per_seconds))).length
          < rl.max_calls := by rw [hchar rl now hs]; exact hlt
      rw [acquireNoWait_granted_eq rl now h1,
        sorted_dropWhile_lt_eq_filter _ _ hs]
    · intro hge
      have h1 : ¬ (rl.calls.dropWhile (fun x => decide (x < now - rl.per_seconds))).length
          < rl.max_calls := by rw [hchar rl now hs]; exact hge
      rw [acquireNoWait_blocked_eq rl now h1,
        sorted_dropWhile_lt_eq_filter _ _ hs]
  · intro rl now oldest rest hs hcons hfull hin
    obtain ⟨M, W, calls, stats⟩ := rl
    simp only at hcons hfull hin ⊢
    subst hcons
    have hnot : ¬ (oldest < now - W) := by linarith
    have hwt : (0 : ℚ) < oldest + W - now := by linarith
    have hpurge : (oldest :: rest).dropWhile (fun x => decide (x < now - W))
        = oldest :: rest := by
      rw [List.dropWhile_cons]
      simp [hnot]
    have hlenM : rest.length + 1 = M := by simpa using hfull
    have hnotlt : ¬ ((oldest :: rest).length < M) := by
      simp only [List.length_cons]
      omega
    have hoc : oldest < oldest + W + 1/10 - W := by linarith
    have hdrop2 : (oldest :: rest).dropWhile
        (fun x => decide (x < oldest + W + 1/10 - W))
        = rest.dropWhile (fun x => decide (x < oldest + W + 1/10 - W)) := by
      rw [List.dropWhile_cons]
      simp [hoc]
    have hlen2 : (rest.dropWhile
        (fun x => decide (x < oldest + W + 1/10 - W))).length < M := by
      have h5 : (rest.dropWhile (fun x => decide (x < oldest + W + 1/10 - W))).length
          ≤ rest.length :=
        (List.dropWhile_sublist (fun x => decide (x < oldest + W + 1/10 - W))).length_le
      omega
    have htime : now + (oldest + W - now) + 1/10 = oldest + W + 1/10 := by ring
    simp only [RateLimiter.acquireWait, RateLimiter.cleanup_old_calls,
      RateLimiter.acquireNoWait, hpurge, hnotlt, if_false, hwt, if_true, hdrop2,
      hlen2, htime]
    exact ⟨_, rfl⟩

/-- Witness for C8 at concrete inputs: a limiter with two recorded calls
still grants, and a full limiter with one in-window timestamp succeeds on
the wait path at `oldest + window + 0.1`. -/
theorem acquire_contract_witness :
    ((RateLimiter.mk 3 60 [0, 10] ⟨2, 0, 0, 0⟩).acquireNoWait 20).2 = true
      ∧ (∃ rl', (RateLimiter.mk 1 60 [0] ⟨1, 0, 0, 0⟩).acquireWait 30
          = some (rl', true, 0 + 60 + 1/10)) := by
  constructor
  · have h := (acquire_contract.1 (RateLimiter.mk 3 60 [0, 10] ⟨2, 0, 0, 0⟩) 20
      (by norm_num [List.sorted_cons])).1
      (by norm_num [List.countP_cons, List.countP_nil])
    rw [h]
  · exact acquire_contract.2.1 (RateLimiter.mk 1 60 [0] ⟨1, 0, 0, 0⟩) 30 0 []
      (by norm_num [List.sorted_cons]) rfl rfl (by norm_num)

/-! ## Claim C6 — circuit breaker cooldown / reset -/

/-- Claim C6: once the breaker has tripped (trip time recorded, positive
cooldown), every `can_trade()` call before `cooldown_minutes` have elapsed
returns false and leaves the state untouched; the first call at or after
the cooldown deadline re-arms the breaker and returns true with the
consecutive-loss and API-failure counters cleared; and an explicit
`reset()` on a tripped breaker does the same.  After either event
`can_trade()` returns true. -/
theorem circuit_breaker_trip_cooldown_reset
    (cb : CircuitBreaker) (t0 : ℚ)
    (htrip : cb.is_tripped = true) (htime : cb.trip_time = some t0)
    (hcool : 0 < cb.cooldown_minutes) :
    (∀ now : ℚ, (now - t0) / 60 < cb.cooldown_minutes →
      cb.can_trade now = (cb, false)) ∧
    (∀ now : ℚ, cb.cooldown_minutes ≤ (now - t0) / 60 →
      (cb.can_trade now).2 = true
        ∧ (cb.can_trade now).1.is_tripped = false
        ∧ (cb.can_trade now).1.consecutive_losses = 0
        ∧ (cb.can_trade now).1.api_failures = 0
        ∧ ∀ later : ℚ, ((cb.can_trade now).1.can_trade later).2 = true) ∧
    (cb.reset.2 = true
      ∧ cb.reset.1.is_tripped = false
      ∧ cb.reset.1.consecutive_losses = 0
      ∧ cb.reset.1.api_failures = 0
      ∧ ∀ later : ℚ, (cb.reset.1.can_trade later).2 = true) := by
  refine ⟨?_, ?_, ?_⟩
  · intro now hlt
    simp [CircuitBreaker.can_trade, htrip, htime, hcool, not_le.mpr hlt]
  · intro now hge
    have h : cb.can_trade now = (cb.reset_internal, true) := by
      simp [CircuitBreaker.can_trade, htrip, htime, hcool, hge]
    rw [h]
    refine ⟨rfl, rfl, rfl, rfl, ?_⟩
    intro later
    simp [CircuitBreaker.can_trade, CircuitBreaker.reset_internal]
  · have h : cb.reset = (cb.reset_internal, true) := by
      simp [CircuitBreaker.reset, htrip]
    rw [h]
    refine ⟨rfl, rfl, rfl, rfl, ?_⟩
    intro later
    simp [CircuitBreaker.can_trade, CircuitBreaker.reset_internal]

/-- A concrete tripped breaker (five consecutive losses, tripped at
instant 100, 30-minute cooldown). -/
def trippedCB : CircuitBreaker :=
  { max_consecutive_losses := 5, max_daily_loss_pct := 3, max_api_failures := 10,
    cooldown_minutes := 30, consecutive_losses := 5, daily_pnl := -5,
    daily_pnl_pct := -5, api_failures := 0, is_tripped := true,
    trip_reason := some "consecutive losses", trip_time := some 100,
    last_reset_date := 0 }

/-- Witness for C6: before the deadline (`now = 100`) trading stays blocked;
at `now = 1900` (30 minutes after the trip) it is re-armed with counters
cleared; an explicit reset also re-arms. -/
theorem circuit_breaker_trip_cooldown_reset_witness :
    trippedCB.can_trade 100 = (trippedCB, false)
      ∧ (trippedCB.can_trade 1900).2 = true
      ∧ (trippedCB.can_trade 1900).1.consecutive_losses = 0
      ∧ trippedCB.reset.2 = true := by
  have h := circuit_breaker_trip_cooldown_reset trippedCB 100 rfl rfl
    (by norm_num [trippedCB])
  exact ⟨h.1 100 (by norm_num [trippedCB]), (h.2.1 1900 (by norm_num [trippedCB])).1,
    (h.2.1 1900 (by norm_num [trippedCB])).2.2.1, h.2.2.1⟩

/-! ## Claim C4 — trailing stop -/

/-- Along the take-profit sweep loop, the trailing record's `highest_price`
never decreases (it is only ever overwritten with `max highest price`). -/
theorem handleTpLoop_trailing_mono (price initial_qty : ℚ) :
    ∀ (lvls : List TpLevel) (qty : ℚ) (tr : TrailingInfo) (changed : Bool),
      ∃ tr', (handleTpLoop price initial_qty lvls qty (some tr) changed).trailing
          = some tr' ∧ tr.highest_price ≤ tr'.highest_price := by
  intro lvls
  induction lvls with
  | nil => intro qty tr changed; exact ⟨tr, rfl, le_refl _⟩
  | cons lvl rest ih =>
      intro qty tr changed
      by_cases hex : lvl.executed
      · obtain ⟨tr', h1, h2⟩ := ih qty tr changed
        exact ⟨tr', by simp [handleTpLoop, hex, h1], h2⟩
      · by_cases hz : lvl.price ≤ 0 ∨ lvl.portion ≤ 0
        · obtain ⟨tr', h1, h2⟩ := ih qty tr changed
          exact ⟨tr', by simp [handleTpLoop, hex, hz, h1], h2⟩
        · by_cases hp : price < lvl.price
          · exact ⟨tr, by simp [handleTpLoop, hex, hz, hp], le_refl _⟩
          · by_cases hlast : rest.isEmpty
            · exact ⟨tr, by simp [handleTpLoop, hex, hz, hp, hlast], le_refl _⟩
            · by_cases hsq : (if qty < pyRound 6 (initial_qty * lvl.portion) then qty
                  else pyRound 6 (initial_qty * lvl.portion)) ≤ 0
              · obtain ⟨tr', h1, h2⟩ := ih qty tr changed
                exact ⟨tr', by simp [handleTpLoop, hex, hz, hp, hlast, hsq, h1], h2⟩
              · set sq := if qty < pyRound 6 (initial_qty * lvl.portion) then qty
                  else pyRound 6 (initial_qty * lvl.portion) with hsqdef
                set trUpd : TrailingInfo :=
                  { tr with
                      enabled := decide (lvl.id = 1) || tr.enabled
                      highest_price := max tr.highest_price price } with htrUpd
                have hmax : tr.highest_price ≤ trUpd.highest_price := le_max_left _ _
                by_cases hq0 : qty - sq ≤ 0
                · exact ⟨trUpd, by simp [handleTpLoop, hex, hz, hp, hlast, hsq, hq0,
                    ← hsqdef, htrUpd], hmax⟩
                · obtain ⟨tr', h1, h2⟩ := ih (qty - sq) trUpd true
                  exact ⟨tr', by simp [handleTpLoop, hex, hz, hp, hlast, hsq, hq0,
                    ← hsqdef, htrUpd, h1], le_trans hmax h2⟩

/-- Claim C4: `check_trailing_stop` returns false and leaves the position
untouched when the trailing record is absent or disabled (the stop never
fires before being armed); when it runs, the stored `highest_price` is only
ever replaced by a strictly larger observed price (non-decreasing across
calls, also through the take-profit sweep's `max` update); and for an
enabled record with `highest_price = h > 0` and numeric offset `o ≥ 0` it
returns a verdict that triggers exactly when `price ≤ h * (1 - o)`. -/
theorem check_trailing_stop_contract :
    (∀ (pos : Position) (price : ℚ),
      (pos.trailing = none
        ∨ ∃ tr, pos.trailing = some tr ∧ tr.enabled = false) →
      check_trailing_stop pos price = some (false, pos)) ∧
    (∀ (pos : Position) (price : ℚ) (tr : TrailingInfo) (b : Bool) (pos' : Position),
      pos.trailing = some tr →
      check_trailing_stop pos price = some (b, pos') →
      ∃ tr', pos'.trailing = some tr'
        ∧ tr.highest_price ≤ tr'.highest_price
        ∧ (tr'.highest_price ≠ tr.highest_price →
            tr.highest_price < price ∧ tr'.highest_price = price)) ∧
    (∀ (price initial_qty qty : ℚ) (lvls : List TpLevel) (tr : TrailingInfo)
        (changed : Bool),
      ∃ tr', (handleTpLoop price initial_qty lvls qty (some tr) changed).trailing
          = some tr' ∧ tr.highest_price ≤ tr'.highest_price) ∧
    (∀ (pos : Position) (price : ℚ) (tr : TrailingInfo) (o : ℚ),
      pos.trailing = some tr → tr.enabled = true → tr.offset = some o →
      0 < tr.highest_price → 0 ≤ o →
      ∃ b pos', check_trailing_stop pos price = some (b, pos')
        ∧ (b = true ↔ price ≤ tr.highest_price * (1 - o))) := by
  refine ⟨?_, ?_, ?_, ?_⟩
  · intro pos price h
    rcases h with h | ⟨tr, htr, he⟩
    · unfold check_trailing_stop
      rw [h]
    · unfold check_trailing_stop
      rw [htr]
      simp [he]
  · intro pos price tr b pos' htr h
    obtain ⟨q, ep, tp0, sl0, atp, asl, ds, dh, iq, lv, trl⟩ := pos
    dsimp only at htr
    subst htr
    simp only [check_trailing_stop] at h
    by_cases he : tr.enabled
    · simp only [he, Bool.not_true, Bool.false_eq_true, if_false] at h
      by_cases hlt : (if tr.highest_price ≤ 0 then price else tr.highest_price) < price
      · rw [if_pos hlt] at h
        simp only [Option.some.injEq, Prod.mk.injEq] at h
        obtain ⟨hb, hpos⟩ := h
        refine ⟨{ tr with highest_price := price }, by rw [← hpos, he], ?_, ?_⟩
        · by_cases hz : tr.highest_price ≤ 0
          · rw [if_pos hz] at hlt
            exact absurd hlt (lt_irrefl _)
          · rw [if_neg hz] at hlt
            exact le_of_lt hlt
        · intro hne
          by_cases hz : tr.highest_price ≤ 0
          · rw [if_pos hz] at hlt
            exact absurd hlt (lt_irrefl _)
          · rw [if_neg hz] at hlt
            exact ⟨hlt, rfl⟩
      · rw [if_neg hlt] at h
        cases ho : tr.offset with
        | none =>
            rw [ho] at h
            simp at h
        | some o =>
            rw [ho] at h
            simp only [Option.some.injEq, Prod.mk.injEq] at h
            obtain ⟨hb, hpos⟩ := h
            exact ⟨tr, by rw [← hpos], le_refl _, fun hne => absurd rfl hne⟩
    · simp only [he, Bool.not_false, if_true] at h
      simp only [Option.some.injEq, Prod.mk.injEq] at h
      obtain ⟨hb, hpos⟩ := h
      exact ⟨tr, by rw [← hpos], le_refl _, fun hne => absurd rfl hne⟩
  · intro price initial_qty qty lvls tr changed
    exact handleTpLoop_trailing_mono price initial_qty lvls qty tr changed
  · intro pos price tr o htr he ho hh hoff
    have hz : ¬ tr.highest_price ≤ 0 := not_le.mpr hh
    by_cases hlt : tr.highest_price < price
    · refine ⟨false, { pos with trailing := some { tr with highest_price := price } },
        ?_, ?_⟩
      · unfold check_trailing_stop
        rw [htr]
        simp [he, hz, hlt]
      · have : tr.highest_price * (1 - o) ≤ tr.highest_price := by nlinarith
        exact iff_of_false (by simp) (by push_neg; linarith)
    · refine ⟨decide (price ≤ tr.highest_price * (1 - o)), pos, ?_, ?_⟩
      · unfold check_trailing_stop
        rw [htr]
        simp [he, hz, hlt, ho]
      · exact ⟨of_decide_eq_true, fun hle => decide_eq_true hle⟩

/-- An armed trailing record as the engine would store it
(`trigger = 0.03`, `offset = 0.015`) after the price reached 100. -/
def armedTrailing : TrailingInfo :=
  { enabled := true, trigger := some 0.03, offset := some 0.015,
    highest_price := 100 }

/-- `samplePos` with the armed trailing record attached. -/
def armedPos : Position :=
  { samplePos with trailing := some armedTrailing }

/-- Witness for C4 at concrete inputs: a position without a trailing record
never triggers; an armed record with `highest_price = 100`,
`offset = 0.015` triggers at price 98 (`98 ≤ 100 * 0.985`). -/
theorem check_trailing_stop_contract_witness :
    check_trailing_stop samplePos 50 = some (false, samplePos)
      ∧ (∃ b pos', check_trailing_stop armedPos 98 = some (b, pos')
          ∧ (b = true ↔ (98 : ℚ) ≤ 100 * (1 - 0.015))) := by
  constructor
  · exact check_trailing_stop_contract.1 samplePos 50 (Or.inl rfl)
  · exact check_trailing_stop_contract.2.2.2 armedPos 98 armedTrailing 0.015
      rfl rfl rfl (by norm_num [armedTrailing]) (by norm_num)

/-! ## Claim C3 — take-profit ladder -/

theorem roundHalfEven_bounds (x : ℚ) :
    ⌊x⌋ ≤ roundHalfEven x ∧ roundHalfEven x ≤ ⌊x⌋ + 1 := by
  simp only [roundHalfEven]
  split_ifs <;> constructor <;> omega

theorem roundHalfEven_mono {x y : ℚ} (h : x ≤ y) :
    roundHalfEven x ≤ roundHalfEven y := by
  by_cases hf : ⌊x⌋ = ⌊y⌋
  · have hr : x - (⌊x⌋ : ℚ) ≤ y - (⌊y⌋ : ℚ) := by
      rw [hf]
      have : ((⌊y⌋ : ℚ)) = (⌊y⌋ : ℚ) := rfl
      linarith
    simp only [roundHalfEven, hf]
    rw [hf] at hr
    split_ifs <;> first | omega | linarith
  · have hle : ⌊x⌋ ≤ ⌊y⌋ := Int.floor_le_floor h
    have hlt : ⌊x⌋ < ⌊y⌋ := lt_of_le_of_ne hle hf
    have h1 := (roundHalfEven_bounds x).2
    have h2 := (roundHalfEven_bounds y).1
    omega

theorem pyRound_mono (n : ℕ) {x y : ℚ} (h : x ≤ y) : pyRound n x ≤ pyRound n y := by
  unfold pyRound
  have hpow : (0 : ℚ) < (10 : ℚ) ^ n := by positivity
  have h1 : x * (10 : ℚ) ^ n ≤ y * (10 : ℚ) ^ n :=
    mul_le_mul_of_nonneg_right h (le_of_lt hpow)
  have h2 : roundHalfEven (x * (10 : ℚ) ^ n) ≤ roundHalfEven (y * (10 : ℚ) ^ n) :=
    roundHalfEven_mono h1
  have h3 : ((roundHalfEven (x * (10 : ℚ) ^ n) : ℚ))
      ≤ (roundHalfEven (y * (10 : ℚ) ^ n) : ℚ) := by exact_mod_cast h2
  gcongr

/-- Pointwise reflexivity of the executed-flag preservation relation. -/
theorem forallExec_refl : ∀ l : List TpLevel,
    List.Forall₂ (fun a b : TpLevel => a.executed = true → b.executed = true) l l
  | [] => List.Forall₂.nil
  | _ :: l => List.Forall₂.cons (fun h => h) (forallExec_refl l)

/-- Along the sweep loop, a tier's executed flag is never cleared: each
output tier's flag is implied by the corresponding input tier's flag. -/
theorem handleTpLoop_executed_mono (price initial_qty : ℚ) :
    ∀ (lvls : List TpLevel) (qty : ℚ) (tr : Option TrailingInfo) (changed : Bool),
      List.Forall₂ (fun a b : TpLevel => a.executed = true → b.executed = true)
        lvls (handleTpLoop price initial_qty lvls qty tr changed).levels := by
  intro lvls
  induction lvls with
  | nil => intro qty tr changed; exact List.Forall₂.nil
  | cons lvl rest ih =>
      intro qty tr changed
      simp only [handleTpLoop]
      split_ifs with h1 h2 h3 h4 h5 h6 <;>
        first
          | exact forallExec_refl _
          | exact List.Forall₂.cons (fun h => h) (ih _ _ _)
          | exact List.Forall₂.cons (fun _ => rfl) (ih _ _ _)
          | exact List.Forall₂.cons (fun _ => rfl) (forallExec_refl _)

/-- If every earlier tier is already executed and the price has reached the
(valid) last tier's target, the sweep loop fires the full close. -/
theorem handleTpLoop_full_close (price initial_qty : ℚ) :
    ∀ (done : List TpLevel) (last : TpLevel) (qty : ℚ) (tr : Option TrailingInfo)
      (changed : Bool),
      (∀ l ∈ done, l.executed = true) →
      last.executed = false → 0 < last.price → 0 < last.portion →
      last.price ≤ price →
      (handleTpLoop price initial_qty (done ++ [last]) qty tr changed).closed = true
        ∧ (handleTpLoop price initial_qty (done ++ [last]) qty tr changed).actions
            = [TpAction.fullClose] := by
  intro done
  induction done with
  | nil =>
      intro last qty tr changed _ hex hp hport hle
      have h1 : ¬ (last.price ≤ 0 ∨ last.portion ≤ 0) := by
        push_neg
        constructor <;> linarith
      have h2 : ¬ price < last.price := not_lt.mpr hle
      constructor <;> simp [handleTpLoop, hex, h1, h2]
  | cons d done' ih =>
      intro last qty tr changed hdone hex hp hport hle
      have hd : d.executed = true := hdone d (List.mem_cons_self _ _)
      have ih' := ih last qty tr changed
        (fun l hl => hdone l (List.mem_cons_of_mem _ hl)) hex hp hport hle
      constructor <;> simp [handleTpLoop, hd, ih'.1, ih'.2]

/-- The three raw tier targets are ordered once the adjusted ratio is
nonnegative, and 2-decimal rounding preserves the order weakly. -/
theorem tpPricesChain (entry_price a : ℚ) (hentry : 0 ≤ entry_price) (ha0 : 0 ≤ a) :
    pyRound 2 (entry_price * (1.0 + a * 0.6)) ≤ pyRound 2 (entry_price * (1.0 + a * 1.0))
      ∧ pyRound 2 (entry_price * (1.0 + a * 1.0))
          ≤ pyRound 2 (entry_price * (1.0 + a * 1.6)) := by
  constructor
  · apply pyRound_mono
    apply mul_le_mul_of_nonneg_left _ hentry
    nlinarith
  · apply pyRound_mono
    apply mul_le_mul_of_nonneg_left _ hentry
    nlinarith

/-- Counterexample to C3 as stated: at entry price `0.1` with the default
TP ratio `0.02`, all three tier targets round (to 2 decimals) to `0.1` —
the target prices are not strictly increasing. -/
theorem tp_ladder_equal_prices_counterexample :
    ((build_tp_levels (1/10) (some (2/100)) 1).map (fun l => l.price))
        = [1/10, 1/10, 1/10]
      ∧ ¬ List.Chain' (· < ·)
          ((build_tp_levels (1/10) (some (2/100)) 1).map (fun l => l.price)) := by
  constructor
  · norm_num [build_tp_levels, defaultBaseRatio, pyRound, roundHalfEven]
  · norm_num [build_tp_levels, defaultBaseRatio, pyRound, roundHalfEven,
      List.chain'_cons]

/-- Claim C3 (amended): the ladder always has exactly three tiers with
portions `0.5 / 0.3 / 0.2` summing to 1, all initially unexecuted, at
non-decreasing target prices (2-decimal rounding can merge adjacent tiers,
so they need not be strictly increasing); the dynamic TP multiplier is
nonnegative whenever the decision's `tp_mult` input is; the per-tick sweep
never clears an executed flag, so each tier fires at most once; and when
every earlier tier has executed and the price reaches the last tier's
target, the sweep fully closes the position via `market_sell`, regardless
of the current quantity. -/
theorem tp_ladder_contract :
    (∀ (entry_price : ℚ) (base_ratio : Option ℚ) (tpm : ℚ),
      0 ≤ entry_price → 0 ≤ tpm →
      (build_tp_levels entry_price base_ratio tpm).length = 3
        ∧ (build_tp_levels entry_price base_ratio tpm).map (fun l => l.portion)
            = [0.5, 0.3, 0.2]
        ∧ ((build_tp_levels entry_price base_ratio tpm).map (fun l => l.portion)).sum = 1
        ∧ (∀ l ∈ build_tp_levels entry_price base_ratio tpm, l.executed = false)
        ∧ List.Chain' (· ≤ ·)
            ((build_tp_levels entry_price base_ratio tpm).map (fun l => l.price))) ∧
    (∀ (btc_tp_mult : Option ℚ) (confidence : ℚ),
      (∀ m, btc_tp_mult = some m → 0 ≤ m) →
      0 ≤ dynamic_tp_multiplier btc_tp_mult confidence) ∧
    (∀ (price initial_qty : ℚ) (lvls : List TpLevel) (qty : ℚ)
        (tr : Option TrailingInfo) (changed : Bool),
      List.Forall₂ (fun a b : TpLevel => a.executed = true → b.executed = true)
        lvls (handleTpLoop price initial_qty lvls qty tr changed).levels) ∧
    (∀ (pos : Position) (price : ℚ) (done : List TpLevel) (last : TpLevel),
      List.Sorted (fun a b : TpLevel => a.id ≤ b.id) pos.tp_levels →
      pos.tp_levels = done ++ [last] →
      (∀ l ∈ done, l.executed = true) →
      last.executed = false → 0 < last.price → 0 < last.portion →
      last.price ≤ price → 0 < pos.initial_qty → 0 < pos.qty →
      (handle_tp_levels pos price).2.2.1 = true
        ∧ (handle_tp_levels pos price).2.1 = [TpAction.fullClose]) := by
  refine ⟨?_, ?_, handleTpLoop_executed_mono, ?_⟩
  · intro entry_price base_ratio tpm hentry htpm
    have hb0 : 0 ≤ defaultBaseRatio base_ratio := by
      cases base_ratio with
      | none => norm_num [defaultBaseRatio]
      | some r =>
          by_cases hr : r ≤ 0
          · norm_num [defaultBaseRatio, hr]
          · simp only [defaultBaseRatio, if_neg hr]
            linarith
    have hadj : 0 ≤ min (defaultBaseRatio base_ratio * tpm) 0.15 :=
      le_min (mul_nonneg hb0 htpm) (by norm_num)
    have hc := tpPricesChain entry_price (min (defaultBaseRatio base_ratio * tpm) 0.15)
      hentry hadj
    refine ⟨rfl, rfl, by norm_num [build_tp_levels], ?_, ?_⟩
    · intro l hl
      simp only [build_tp_levels, List.mem_cons, List.not_mem_nil, or_false] at hl
      rcases hl with h | h | h <;> rw [h]
    · simp only [build_tp_levels, List.map_cons, List.map_nil, List.chain'_cons,
        List.chain'_singleton, and_true]
      exact ⟨hc.1, hc.2⟩
  · intro btc_tp_mult confidence hm
    cases btc_tp_mult with
    | none =>
        simp only [dynamic_tp_multiplier]
        split_ifs <;> norm_num
    | some m =>
        have hm' : 0 ≤ m := hm m rfl
        simp only [dynamic_tp_multiplier]
        split_ifs <;>
          · apply le_min
            · nlinarith
            · norm_num
  · intro pos price done last hsorted hsplit hdone hex hp hport hle hinit hqty
    have hne : pos.tp_levels.isEmpty = false := by
      rw [hsplit]
      cases done <;> rfl
    have hguard : ¬ (pos.initial_qty ≤ 0 ∨ pos.qty ≤ 0) := by
      push_neg
      constructor <;> linarith
    have hsortEq : pos.tp_levels.insertionSort (fun a b => a.id ≤ b.id)
        = done ++ [last] := by
      rw [List.Sorted.insertionSort_eq hsorted, hsplit]
    have hloop := handleTpLoop_full_close price pos.initial_qty done last pos.qty
      pos.trailing false hdone hex hp hport hle
    constructor <;>
      simp [handle_tp_levels, hne, hguard, hsortEq, hloop.1, hloop.2]

/-- A sorted ladder whose first two tiers have executed, as after two
partial exits (spec scenario 3 with drifted quantity). -/
def nearlyDoneLadder : List TpLevel :=
  [ ⟨1, 103, 0.5, true⟩, ⟨2, 106, 0.3, true⟩, ⟨3, 110, 0.2, false⟩ ]

/-- A position holding `nearlyDoneLadder` with drifted quantity 17 (initial
100). -/
def nearlyDonePos : Position :=
  { samplePos with qty := 17, initial_qty := 100, tp_levels := nearlyDoneLadder }

/-- Witness for C3 at concrete inputs: the freshly built ladder at entry
100 has the fixed three-tier structure, and at price 111 the position with
two tiers already executed fully closes. -/
theorem tp_ladder_contract_witness :
    ((build_tp_levels 100 (some 0.02) 1).length = 3
      ∧ (build_tp_levels 100 (some 0.02) 1).map (fun l => l.portion) = [0.5, 0.3, 0.2])
      ∧ ((handle_tp_levels nearlyDonePos 111).2.2.1 = true
        ∧ (handle_tp_levels nearlyDonePos 111).2.1 = [TpAction.fullClose]) := by
  constructor
  · have h := tp_ladder_contract.1 100 (some 0.02) 1 (by norm_num) (by norm_num)
    exact ⟨h.1, h.2.1⟩
  · refine tp_ladder_contract.2.2.2 nearlyDonePos 111
      [⟨1, 103, 0.5, true⟩, ⟨2, 106, 0.3, true⟩] ⟨3, 110, 0.2, false⟩
      ?_ rfl ?_ rfl (by norm_num) (by norm_num) (by norm_num)
      (by norm_num [nearlyDonePos, samplePos]) (by norm_num [nearlyDonePos, samplePos])
    · norm_num [nearlyDonePos, nearlyDoneLadder, List.sorted_cons]
    · intro l hl
      fin_cases hl <;> rfl

/-! ## Claim C5 — trade sizing vs the position-weight cap -/

/-- The clamp phase respects the weight cap (for positive results), the
free-balance ceiling, and the minimum-notional floor. -/
theorem get_trade_amountClamp_caps (cfg : RiskConfig) (env : RiskEnv)
    (is_dca : Bool) (t5 : ℚ)
    (htot : 0 < env.total_capital) (hfree : 0 ≤ env.free_krw) (amt : ℚ)
    (hamt : amt = get_trade_amountClamp cfg env is_dca t5) :
    (0 < amt →
      (env.current_value + amt) / env.total_capital ≤ cfg.POSITION_WEIGHT_CAP)
      ∧ amt ≤ env.free_krw * 0.85
      ∧ (0 < amt → cfg.MIN_ORDER_AMOUNT ≤ amt) := by
  have hf85 : (0 : ℚ) ≤ env.free_krw * 0.85 := mul_nonneg hfree (by norm_num)
  simp only [get_trade_amountClamp] at hamt
  by_cases hdca : (is_dca && !(check_dca_limit_allowed cfg env.dca_stage)) = true
  · rw [if_pos hdca] at hamt
    subst hamt
    exact ⟨fun h => absurd h (by norm_num), hf85, fun h => absurd h (by norm_num)⟩
  · rw [if_neg hdca] at hamt
    set target6 := if (check_position_weight_cap cfg env t5).allowed then t5
      else (check_position_weight_cap cfg env t5).max_allowed_krw with ht6
    by_cases hmin : min target6 (env.free_krw * 0.85) < cfg.MIN_ORDER_AMOUNT
    · rw [if_pos hmin] at hamt
      subst hamt
      exact ⟨fun h => absurd h (by norm_num), hf85, fun h => absurd h (by norm_num)⟩
    · rw [if_neg hmin] at hamt
      refine ⟨?_, ?_, ?_⟩
      · intro hpos
        have hx : 0 < min target6 (env.free_krw * 0.85) := by
          rw [hamt] at hpos
          rcases lt_max_iff.mp hpos with h | h
          · exact absurd h (by norm_num)
          · exact h
        have hamt' : amt = min target6 (env.free_krw * 0.85) := by
          rw [hamt]
          exact max_eq_right (le_of_lt hx)
        have hle6 : amt ≤ target6 := hamt' ▸ min_le_left _ _
        by_cases hw : (check_position_weight_cap cfg env t5).allowed = true
        · have ht6' : target6 = t5 := by rw [ht6, if_pos hw]
          have heq : check_position_weight_cap cfg env t5
              = { allowed := decide ((env.current_value + t5) / env.total_capital
                    ≤ cfg.POSITION_WEIGHT_CAP)
                  current_weight := env.current_value / env.total_capital
                  new_weight := (env.current_value + t5) / env.total_capital
                  max_allowed_krw := max 0 (cfg.POSITION_WEIGHT_CAP
                    * env.total_capital - env.current_value) } := by
            simp [check_position_weight_cap, not_le.mpr htot]
          rw [heq] at hw
          simp only [decide_eq_true_eq] at hw
          have hmono : (env.current_value + amt) / env.total_capital
              ≤ (env.current_value + t5) / env.total_capital := by
            gcongr
            exact ht6' ▸ hle6
          exact le_trans hmono hw
        · have ht6' : target6 = (check_position_weight_cap cfg env t5).max_allowed_krw := by
            rw [ht6, if_neg hw]
          have hmax : (check_position_weight_cap cfg env t5).max_allowed_krw
              = max 0 (cfg.POSITION_WEIGHT_CAP * env.total_capital
                  - env.current_value) := by
            simp [check_position_weight_cap, not_le.mpr htot]
          by_cases hneg : cfg.POSITION_WEIGHT_CAP * env.total_capital
              - env.current_value ≤ 0
          · exfalso
            have h0 : target6 = 0 := by rw [ht6', hmax, max_eq_left hneg]
            rw [h0] at hle6
            linarith
          · have h0 : target6 = cfg.POSITION_WEIGHT_CAP * env.total_capital
                - env.current_value := by
              rw [ht6', hmax, max_eq_right (le_of_lt (not_le.mp hneg))]
            rw [div_le_iff₀ htot]
            rw [h0] at hle6
            linarith
      · rw [hamt]
        exact max_le hf85 (min_le_right _ _)
      · intro hpos
        have hx : 0 < min target6 (env.free_krw * 0.85) := by
          rw [hamt] at hpos
          rcases lt_max_iff.mp hpos with h | h
          · exact absurd h (by norm_num)
          · exact h
        have hamt' : amt = min target6 (env.free_krw * 0.85) := by
          rw [hamt]
          exact max_eq_right (le_of_lt hx)
        rw [hamt']
        exact not_lt.mp hmin

/-- Claim C5 (amended): whenever `get_trade_amount` returns a positive
amount, the post-trade weight `(current_value + amount) / total_capital`
stays within the configured cap (a zero return can coexist with an already
over-cap holding); the returned amount never exceeds `free_balance * 0.85`;
and a positive return is never below the minimum order notional (amounts
that would fall below it are returned as 0). -/
theorem get_trade_amount_weight_cap
    (cfg : RiskConfig) (env : RiskEnv) (pf_weight : ℚ) (is_dca : Bool)
    (btc_position_mult time_position_mult : Option ℚ) (ai_confidence : ℚ)
    (htot : 0 < env.total_capital) (hfree : 0 ≤ env.free_krw) (amt : ℚ)
    (hamt : amt = get_trade_amount cfg env pf_weight is_dca btc_position_mult
      time_position_mult ai_confidence) :
    (0 < amt →
      (env.current_value + amt) / env.total_capital ≤ cfg.POSITION_WEIGHT_CAP)
      ∧ amt ≤ env.free_krw * 0.85
      ∧ (0 < amt → cfg.MIN_ORDER_AMOUNT ≤ amt) := by
  have hf85 : (0 : ℚ) ≤ env.free_krw * 0.85 := mul_nonneg hfree (by norm_num)
  cases btc_position_mult with
  | none =>
      simp only [get_trade_amount, get_trade_amountTail] at hamt
      exact get_trade_amountClamp_caps cfg env is_dca _ htot hfree amt hamt
  | some m =>
      by_cases hm : m ≤ 0
      · simp only [get_trade_amount, if_pos hm] at hamt
        subst hamt
        exact ⟨fun h => absurd h (by norm_num), hf85, fun h => absurd h (by norm_num)⟩
      · simp only [get_trade_amount, if_neg hm, get_trade_amountTail] at hamt
        exact get_trade_amountClamp_caps cfg env is_dca _ htot hfree amt hamt

/-- Counterexample to C5 as stated: with total capital 1,000,000, cap 0.55
and an existing holding already worth 600,000, `get_trade_amount` returns 0
— and `(600000 + 0) / 1000000 = 0.6` exceeds the cap, so the returned
amount does not satisfy the claimed inequality. -/
theorem get_trade_amount_over_cap_counterexample :
    get_trade_amount ⟨0.55, 5000, 2, false⟩ ⟨1000000, 1000000, 600000, none, 0⟩
        0.1 false none none 0.5 = 0
      ∧ ¬ (((1000000 : ℚ) * 0 + 600000 + get_trade_amount ⟨0.55, 5000, 2, false⟩
            ⟨1000000, 1000000, 600000, none, 0⟩ 0.1 false none none 0.5) / 1000000
          ≤ (0.55 : ℚ)) := by
  have h : get_trade_amount ⟨0.55, 5000, 2, false⟩ ⟨1000000, 1000000, 600000, none, 0⟩
      0.1 false none none 0.5 = 0 := by
    norm_num [get_trade_amount, get_trade_amountTail, get_trade_amountClamp,
      check_position_weight_cap, confidence_multiplier, check_dca_limit_allowed]
  refine ⟨h, ?_⟩
  rw [h]
  norm_num

/-- Witness for C5 at concrete inputs: capital 1,000,000, cap 0.55, no
holding, free balance 1,000,000, confidence 0.5 — the returned size obeys
all three bounds. -/
theorem get_trade_amount_weight_cap_witness :
    (0 < get_trade_amount ⟨0.55, 5000, 2, false⟩ ⟨1000000, 1000000, 0, none, 0⟩
        0.1 false none none 0.5 →
      ((0 : ℚ) + get_trade_amount ⟨0.55, 5000, 2, false⟩ ⟨1000000, 1000000, 0, none, 0⟩
          0.1 false none none 0.5) / 1000000 ≤ (0.55 : ℚ))
      ∧ get_trade_amount ⟨0.55, 5000, 2, false⟩ ⟨1000000, 1000000, 0, none, 0⟩
          0.1 false none none 0.5 ≤ (1000000 : ℚ) * 0.85 := by
  have h := get_trade_amount_weight_cap ⟨0.55, 5000, 2, false⟩
    ⟨1000000, 1000000, 0, none, 0⟩ 0.1 false none none 0.5
    (by norm_num) (by norm_num) _ rfl
  exact ⟨h.1, h.2.1⟩

/-! ## Claim C9 — market_sell on a zero exchange balance -/

theorem assocErase_of_find_none (k : String) (l : List (String × α))
    (h : assocFind k l = none) : assocErase k l = l := by
  induction l with
  | nil => rfl
  | cons p rest ih =>
      by_cases hpk : p.1 = k
      · simp [assocFind, hpk] at h
      · have h' : assocFind k rest = none := by
          simpa [assocFind, hpk] using h
        simp [assocErase, List.filter_cons, hpk] at ih ⊢
        exact ih h'

/-- Claim C9: when `market_sell` resolves a current price `p > 0`, is not
diverted into the SEMI-mode approval flow (which only happens for a
loss-making sale: positive stored entry price above the current price, in
SEMI mode, without `skip_approval`), and the authoritative exchange balance
is ≤ 0, it submits no sell order, clears the pending stop-loss-approval
mark, deletes the stored position via `close_position` at the current
price, and returns true. -/
theorem market_sell_zero_balance
    (s : EngineState) (env : SellEnv) (symbol : String) (pos : Position)
    (ratio : ℚ) (skip_approval : Bool) (p : ℚ)
    (hprice : env.price = some p) (hp : 0 < p)
    (hbal : env.actual_balance ≤ 0)
    (hnodivert : ¬ (env.mode = "SEMI" ∧ skip_approval = false
      ∧ 0 < pos.entry_price ∧ p < pos.entry_price)) :
    market_sell s env symbol pos ratio skip_approval
      = ({ pm := PositionManager.mk (assocErase symbol s.pm.positions),
           sl_pending_symbols := s.sl_pending_symbols.filter (· ≠ symbol) },
          true, [])
      ∧ (PositionManager.mk (assocErase symbol s.pm.positions)).get_position symbol
          = none
      ∧ symbol ∉ s.sl_pending_symbols.filter (· ≠ symbol) := by
  refine ⟨?_, assocFind_assocErase_self symbol s.pm.positions, by simp⟩
  have hclose : (s.pm.close_position symbol p).1
      = PositionManager.mk (assocErase symbol s.pm.positions) := by
    cases hfind : assocFind symbol s.pm.positions with
    | none =>
        simp only [PositionManager.close_position, hfind]
        rw [assocErase_of_find_none symbol s.pm.positions hfind]
    | some q => simp only [PositionManager.close_position, hfind]
  obtain ⟨mode, price, bal, tg, sh, fill⟩ := env
  simp only at hprice hbal hnodivert
  subst hprice
  have hple : ¬ p ≤ 0 := not_le.mpr hp
  by_cases hcond : (mode = "SEMI" && !skip_approval) = true
  · have hmode : mode = "SEMI" := by
      have := (Bool.and_eq_true _ _).mp hcond
      exact of_decide_eq_true this.1
    have hskip : skip_approval = false := by
      have := (Bool.and_eq_true _ _).mp hcond
      simpa using this.2
    have hpe : (if pos.entry_price ≤ 0 then p else pos.entry_price) ≤ p := by
      by_cases hent : pos.entry_price ≤ 0
      · rw [if_pos hent]
      · rw [if_neg hent]
        by_contra hgt
        exact hnodivert ⟨hmode, hskip, not_le.mp hent, not_le.mp hgt⟩
    have hm : (0 : ℚ) < max (if pos.entry_price ≤ 0 then p else pos.entry_price) 1 :=
      lt_of_lt_of_le one_pos (le_max_right _ _)
    have hnn : ¬ ((p - (if pos.entry_price ≤ 0 then p else pos.entry_price))
        / max (if pos.entry_price ≤ 0 then p else pos.entry_price) 1 * 100 < 0) := by
      push_neg
      have h1 : (0 : ℚ) ≤ p - (if pos.entry_price ≤ 0 then p else pos.entry_price) :=
        sub_nonneg.mpr hpe
      have h2 := div_nonneg h1 (le_of_lt hm)
      nlinarith
    simp only [market_sell, hple, if_false, hcond, if_true, decide_eq_false hnn,
      Bool.false_eq_true, hbal, if_pos hbal, if_pos trivial, hclose]
  · simp only [market_sell, hple, if_false, hcond, Bool.false_eq_true,
      hbal, if_pos hbal, if_pos trivial, hclose]

/-- Witness for C9 at concrete inputs: FULL mode, price 100, exchange
balance 0 — the stored position is deleted and the call reports success
without submitting an order. -/
theorem market_sell_zero_balance_witness :
    market_sell ⟨samplePM, ["BTC/KRW"]⟩
        ⟨"FULL", some 100, 0, true, false, none⟩ "BTC/KRW" samplePos 1 false
      = ({ pm := PositionManager.mk (assocErase "BTC/KRW" samplePM.positions),
           sl_pending_symbols := ["BTC/KRW"].filter (· ≠ "BTC/KRW") }, true, [])
      ∧ (PositionManager.mk
          (assocErase "BTC/KRW" samplePM.positions)).get_position "BTC/KRW" = none := by
  have h := market_sell_zero_balance ⟨samplePM, ["BTC/KRW"]⟩
    ⟨"FULL", some 100, 0, true, false, none⟩ "BTC/KRW" samplePos 1 false 100
    rfl (by norm_num) (by norm_num) (by intro hc; exact absurd hc.1 (by decide))
  exact ⟨h.1, h.2.1⟩

/-! ## Claim C10 — get_or_set with a factory returning None -/

theorem assocFind_assocErase_ne (k k' : String) (l : List (String × α))
    (h : k' ≠ k) : assocFind k' (assocErase k l) = assocFind k' l := by
  induction l with
  | nil => rfl
  | cons p rest ih =>
      by_cases hpk : p.1 = k
      · have hpk' : ¬ p.1 = k' := by rw [hpk]; exact fun hh => h hh.symm
        rw [assocErase, List.filter_cons_of_neg (by simp [hpk])]
        rw [assocErase] at ih
        rw [ih, assocFind, if_neg hpk']
      · rw [assocErase, List.filter_cons_of_pos (by simp [hpk])]
        rw [assocFind, assocFind]
        by_cases hp' : p.1 = k'
        · rw [if_pos hp', if_pos hp']
        · rw [if_neg hp', if_neg hp']
          rw [assocErase] at ih
          exact ih

/-- A `get_or_set` on a key the cache does not hold returns exactly the
factory's result. -/
theorem get_or_set_of_absent {α : Type} (c : CacheManager α) (now : ℚ)
    (key : String) (fr : Option α) (ttl : Option ℚ)
    (h : assocFind key c.cache = none) :
    (c.get_or_set now key fr ttl).2 = fr := by
  cases fr with
  | none => simp [CacheManager.get_or_set, CacheManager.get, h]
  | some v => simp [CacheManager.get_or_set, CacheManager.get, h]

/-- Counterexample to C10 as stated: with an expired entry stored under the
key, a `get_or_set` whose factory returns `None` does change the cache's
contents — the lazy read evicts the expired entry. -/
theorem get_or_set_none_evicts_counterexample :
    ((CacheManager.mk 60 [("k", CacheEntry.mk (1 : ℚ) 10 0 0)]
        ⟨0, 0, 0, 0, 0⟩).get_or_set 20 "k" none none).2 = none
      ∧ ((CacheManager.mk 60 [("k", CacheEntry.mk (1 : ℚ) 10 0 0)]
          ⟨0, 0, 0, 0, 0⟩).get_or_set 20 "k" none none).1.cache
        ≠ (CacheManager.mk 60 [("k", CacheEntry.mk (1 : ℚ) 10 0 0)]
            ⟨0, 0, 0, 0, 0⟩).cache := by
  constructor
  · norm_num [CacheManager.get_or_set, CacheManager.get, assocFind, assocErase,
      List.filter_cons]
  · norm_num [CacheManager.get_or_set, CacheManager.get, assocFind, assocErase,
      List.filter_cons]

/-- Claim C10 (amended): if the factory runs (the lazy read finds no live
entry) and returns `None`, no cache entry is stored for the key — the call
returns `None`, leaves every other key's entry unchanged, and at most
evicts an already-expired entry stored under the key — so a `None` result
is recomputed by the factory on every subsequent `get_or_set` for that key. -/
theorem get_or_set_factory_none {α : Type} (c : CacheManager α) (now : ℚ)
    (key : String) (ttl : Option ℚ)
    (hmiss : (c.get now key).2 = none) :
    (c.get_or_set now key none ttl).2 = none
      ∧ assocFind key (c.get_or_set now key none ttl).1.cache = none
      ∧ (∀ k', k' ≠ key →
          assocFind k' (c.get_or_set now key none ttl).1.cache
            = assocFind k' c.cache)
      ∧ (∀ (later : ℚ) (fr' : Option α) (ttl' : Option ℚ),
          ((c.get_or_set now key none ttl).1.get_or_set later key fr' ttl').2 = fr') := by
  have hlive : ∀ entry, assocFind key c.cache = some entry →
      entry.expires_at < now := by
    intro entry hfind
    by_contra hexp
    have hv : (c.get now key).2 = some entry.value := by
      simp [CacheManager.get, hfind, hexp]
    rw [hv] at hmiss
    cases hmiss
  have hres : (c.get_or_set now key none ttl).2 = none := by
    cases hfind : assocFind key c.cache with
    | none => simp [CacheManager.get_or_set, CacheManager.get, hfind]
    | some entry =>
        simp [CacheManager.get_or_set, CacheManager.get, hfind, hlive entry hfind]
  have hkey : assocFind key (c.get_or_set now key none ttl).1.cache = none := by
    cases hfind : assocFind key c.cache with
    | none =>
        have h : (c.get_or_set now key none ttl).1.cache = c.cache := by
          simp [CacheManager.get_or_set, CacheManager.get, hfind]
        rw [h]
        exact hfind
    | some entry =>
        have h : (c.get_or_set now key none ttl).1.cache
            = assocErase key c.cache := by
          simp [CacheManager.get_or_set, CacheManager.get, hfind, hlive entry hfind]
        rw [h]
        exact assocFind_assocErase_self key c.cache
  refine ⟨hres, hkey, ?_, ?_⟩
  · intro k' hk'
    cases hfind : assocFind key c.cache with
    | none =>
        have h : (c.get_or_set now key none ttl).1.cache = c.cache := by
          simp [CacheManager.get_or_set, CacheManager.get, hfind]
        rw [h]
    | some entry =>
        have h : (c.get_or_set now key none ttl).1.cache
            = assocErase key c.cache := by
          simp [CacheManager.get_or_set, CacheManager.get, hfind, hlive entry hfind]
        rw [h]
        exact assocFind_assocErase_ne key k' c.cache hk'
  · intro later fr' ttl'
    exact get_or_set_of_absent _ later key fr' ttl' hkey

def emptyNatCache : CacheManager ℕ := ⟨60, [], ⟨0, 0, 0, 0, 0⟩⟩

/-- Witness for C10 (amended) on an empty cache: the lazy read misses and a
`get_or_set` whose factory returns `None` returns `None` without storing an
entry. -/
theorem get_or_set_factory_none_witness :
    (emptyNatCache.get 0 "k").2 = none
      ∧ (emptyNatCache.get_or_set 0 "k" none none).2 = none
      ∧ assocFind "k" (emptyNatCache.get_or_set 0 "k" none none).1.cache = none :=
  ⟨by simp [emptyNatCache, CacheManager.get, assocFind],
   (get_or_set_factory_none emptyNatCache 0 "k" none
     (by simp [emptyNatCache, CacheManager.get, assocFind])).1,
   (get_or_set_factory_none emptyNatCache 0 "k" none
     (by simp [emptyNatCache, CacheManager.get, assocFind])).2.1⟩

end Phoenix
